import Mathlib

/-!
# phono: Params, wav sample conversion and the Track compositor

Shallow embedding of `src/phono.go` (`Params`), of `AsSamples` / `AsBuffer`
from `src/wav.go`, and of the Track compositor of `track/track.go` (described by
spec.md §4.3 and exercised by `src/track/track_test.go`).

Conventions of the embedding.

* A Go `map[interface{}][]ParamFunc` is an association list whose keys are
  pairwise distinct; `nil` maps are `none`.  Consumers are identities taken from
  a type with decidable equality, that is, interface values of a comparable
  dynamic type (a value of a non-comparable type cannot be a map key).  Go
  iterates a map in an unspecified order; every list with the same distinct-key
  content stands for one such order.
* A slice is modelled by its visible contents (a `List`); backing arrays are
  not modelled.  In the code `Join` stores the source's slice itself in the
  receiver and `append` writes in place while capacity lasts, so after a `Join`
  two Params can share a backing array and a later `Add` or `Join` through one
  of them can overwrite cells visible through the other.  The model of a call
  is therefore exact for the receiver (its lists after the call, given the
  lists visible before it) and for the key sets and list lengths of every
  object, and the statements below about the lists after a call speak of the
  receiver only.
* `*Params` values live in a heap (a list of objects, the address is the index);
  the nil pointer is `none`.  A run-time failure (nil dereference, write to a nil
  map) is the result `none` of an operation.
* `ParamFunc` (a non-nil `func()` closure) is a transformer of an explicit state
  that is separate from the heap of Params.
-/

namespace Phono

/-! ## Go maps as association lists -/

/-- The lookup `v, ok := m[k]` of a Go map. -/
def mapGet {K V : Type} [DecidableEq K] : List (K × V) → K → Option V
  | [], _ => none
  | (k', v) :: rest, k => if k' = k then some v else mapGet rest k

/-- The assignment `m[k] = v` of a Go map: replaces the value of an existing key,
adds the key otherwise. -/
def mapSet {K V : Type} [DecidableEq K] : List (K × V) → K → V → List (K × V)
  | [], k, v => [(k, v)]
  | (k', v') :: rest, k, v =>
    if k' = k then (k', v) :: rest else (k', v') :: mapSet rest k v

/-- The keys of a map are pairwise distinct, as in every Go map. -/
def DistinctKeys {K V : Type} (m : List (K × V)) : Prop :=
  (m.map Prod.fst).Nodup

/-! ## Params (src/phono.go) -/

/-- Go `Param struct { Consumer interface{}; Apply ParamFunc }`. -/
structure Param (K A : Type) where
  Consumer : K
  Apply : A

/-- Go `Params struct { private map[interface{}][]ParamFunc }`; `none` is the nil map. -/
structure Params (K A : Type) where
  priv : Option (List (K × List A))
  deriving DecidableEq

/-- A `*Params`: `none` is nil, `some a` the address of a heap object. -/
abbrev Ptr := Option Nat

/-- The heap of `Params` objects. -/
abbrev Heap (K A : Type) := List (Params K A)

/-- Go `func (p Params) Empty() bool` (value receiver). -/
def Params.Empty {K A : Type} (p : Params K A) : Bool :=
  match p.priv with
  | none => true
  | some m => if m.length = 0 then true else false

/-- The call `p.Empty()` through a pointer `p *Params`: Go dereferences `p` to
copy the receiver, which fails on nil. -/
def callEmpty {K A : Type} (h : Heap K A) (p : Ptr) : Option Bool :=
  match p with
  | none => none
  | some a =>
    match h[a]? with
    | none => none
    | some P => some P.Empty

/-- One iteration of the loop of `Add`: read `p.private[param.Consumer]`,
start from an empty slice when the key is absent, append, store.  Storing into
a nil map fails. -/
def addStep {K A : Type} [DecidableEq K] (m : Option (List (K × List A)))
    (param : Param K A) : Option (List (K × List A)) :=
  match m with
  | none => none
  | some m =>
    let priv := match mapGet m param.Consumer with
      | some l => l
      | none => []
    some (mapSet m param.Consumer (priv ++ [param.Apply]))

/-- The loop `for _, param := range params` of `Add` on the map of the receiver;
`none` is the failure of a store into a nil map. -/
def addLoop {K A : Type} [DecidableEq K] :
    Option (List (K × List A)) → List (Param K A) → Option (Option (List (K × List A)))
  | m, [] => some m
  | m, param :: rest =>
    match addStep m param with
    | none => none
    | some m' => addLoop (some m') rest

/-- Go `func (p *Params) Add(params ...Param) *Params`.  The resulting heap
is exact for the receiver; the contents (not the length) of a list of another
Params that shares a backing array with the receiver can differ in the code. -/
def Add {K A : Type} [DecidableEq K] (h : Heap K A) (p : Ptr)
    (params : List (Param K A)) : Option (Ptr × Heap K A) :=
  match p with
  | none => some (none, h)
  | some a =>
    match h[a]? with
    | none => none
    | some P =>
      match addLoop P.priv params with
      | none => none
      | some m' => some (some a, h.set a ⟨m'⟩)

/-- Go `func NewParams(params ...Param) (result *Params)`: allocates a Params
with an initialised map and adds the params. -/
def NewParams {K A : Type} [DecidableEq K] (h : Heap K A)
    (params : List (Param K A)) : Option (Ptr × Heap K A) :=
  Add (h ++ [⟨some []⟩]) (some h.length) params

/-- Go `func (p *Params) ApplyTo(consumer interface{})`, the actions being
transformers of the state `σ`. -/
def ApplyTo {K σ : Type} [DecidableEq K] (h : Heap K (σ → σ)) (p : Ptr)
    (consumer : K) (st : σ) : Option σ :=
  match p with
  | none => some st
  | some a =>
    match h[a]? with
    | none => none
    | some P =>
      match P.priv.bind (fun m => mapGet m consumer) with
      | some params => some (params.foldl (fun s param => param s) st)
      | none => some st

/-- The entries a `range` over the map of a Params visits (none for a nil map). -/
def Params.entries {K A : Type} (p : Params K A) : List (K × List A) :=
  match p.priv with
  | some es => es
  | none => []

/-- One iteration of the loop of `Join` on the receiver's map. -/
def joinStep {K A : Type} [DecidableEq K] (m : List (K × List A))
    (e : K × List A) : List (K × List A) :=
  match mapGet m e.1 with
  | some old => mapSet m e.1 (old ++ e.2)
  | none => mapSet m e.1 e.2

/-- Go `func (p *Params) Join(source *Params) *Params`.  The loop ranges over
the entries of the source; when source and receiver are one object, the list of
a key is read when the key is visited, before that key is written, so the
entries read up front are the ones the loop sees.  A receiver that is not
`Empty` has a non-nil map.  The resulting heap is exact for the receiver; the
contents (not the length) of a list of another Params that shares a backing
array with the receiver, the source included, can differ in the code. -/
def Join {K A : Type} [DecidableEq K] (h : Heap K A) (p source : Ptr) :
    Option (Ptr × Heap K A) :=
  match p with
  | none => some (source, h)
  | some a =>
    match h[a]? with
    | none => none
    | some P =>
      if P.Empty then some (source, h)
      else
        match source with
        | none => none
        | some b =>
          match h[b]? with
          | none => none
          | some S =>
            match P.priv with
            | none => none
            | some m =>
              some (some a, h.set a ⟨some (S.entries.foldl joinStep m)⟩)

/-- The action list of the object at pointer `p` for consumer `c` (empty when the
consumer has no entry). -/
def actionsOf {K A : Type} [DecidableEq K] (h : Heap K A) (p : Ptr) (c : K) : List A :=
  match p with
  | none => []
  | some a =>
    match h[a]? with
    | none => []
    | some P =>
      match P.priv.bind (fun m => mapGet m c) with
      | some l => l
      | none => []

/-- The entry (present or not) of the object at pointer `p` for consumer `c`. -/
def entryOf {K A : Type} [DecidableEq K] (h : Heap K A) (p : Ptr) (c : K) :
    Option (List A) :=
  match p with
  | none => none
  | some a =>
    match h[a]? with
    | none => none
    | some P => P.priv.bind (fun m => mapGet m c)

/-- A pointer is nil or the address of an allocated object. -/
def ValidPtr {K A : Type} (h : Heap K A) (p : Ptr) : Prop :=
  match p with
  | none => True
  | some a => a < h.length

/-- The per-consumer result of a join as the specification words it: the
receiver's list followed by the source's list; a list present on one side only
is kept; absent on both sides stays absent. -/
def joinEntry {A : Type} : Option (List A) → Option (List A) → Option (List A)
  | some x, some y => some (x ++ y)
  | some x, none => some x
  | none, some y => some y
  | none, none => none

/-- The actions of those pairs of `ps` whose consumer is `c`, in the order in
which they occur in `ps`. -/
def addedFor {K A : Type} [DecidableEq K] (ps : List (Param K A)) (c : K) : List A :=
  (ps.filter (fun q => decide (q.Consumer = c))).map Param.Apply

/-- Heaps reachable through the exported constructors and mutators of Params:
`NewParams`, `Add` and `Join`, on arbitrary pointers into the heap. -/
inductive Reachable {K A : Type} [DecidableEq K] : Heap K A → Prop
  | init : Reachable []
  | newParams {h h' : Heap K A} {r : Ptr} (ps : List (Param K A)) :
      Reachable h → NewParams h ps = some (r, h') → Reachable h'
  | add {h h' : Heap K A} {r : Ptr} (p : Ptr) (ps : List (Param K A)) :
      Reachable h → Add h p ps = some (r, h') → Reachable h'
  | join {h h' : Heap K A} {r : Ptr} (p s : Ptr) :
      Reachable h → Join h p s = some (r, h') → Reachable h'

/-! ## Sample conversion (src/wav.go)

`float64` values are rationals: for the integer samples `d` with `|d| ≤ 2^15`
that the statements below concern, `d / 0x8000` and its product with `0x7fff`
have at most 31 significant bits, so the float64 operations are exact. -/

/-- The `audio.Format` of go-audio (the fields used here). -/
structure AudioFormat where
  NumChannels : Int
  SampleRate : Int
  deriving DecidableEq

/-- The `audio.IntBuffer` of go-audio. -/
structure IntBuffer where
  Format : Option AudioFormat
  Data : List Int
  SourceBitDepth : Int
  deriving DecidableEq

/-- A value of the interface `audio.Buffer`: the nil interface, a
`*audio.IntBuffer` (possibly a nil pointer), or another implementation, of which
only the result of `PCMFormat()` matters. -/
inductive Buffer where
  | nil
  | int (ib : Option IntBuffer)
  | other (fmt : Option AudioFormat)
  deriving DecidableEq

/-- The two errors of the conversions. -/
inductive ConvError where
  | formatNotDefined
  | conversionNotDefined
  deriving DecidableEq

/-- Result of a conversion: a value with a nil error, an error, or a run-time
failure (index out of range, nil dereference, negative length of `make`). -/
inductive Outcome (α : Type) where
  | ok (v : α)
  | error (e : ConvError)
  | fault
  deriving DecidableEq

/-- The `NumFrames()` of `*audio.IntBuffer` for a defined format of `numChannels ≥ 0`
channels: `len(Data) / numChannels`, zero channels counting as one. -/
def NumFrames (data : List Int) (numChannels : Nat) : Nat :=
  if numChannels = 0 then data.length else data.length / numChannels

/-- The Go conversion `int(x)` of a float: truncation towards zero. -/
def goInt (x : ℚ) : Int :=
  if 0 ≤ x then ⌊x⌋ else ⌈x⌉

/-- The inner loop `for j := i; j < bufferLen; j = j + numChannels` of
`AsSamples`, started at `j`; `none` is an index out of range or exhausted fuel
(`bufferLen + 1` iterations always suffice when `numChannels ≥ 1`). -/
def channelLoop (data : List Int) (numChannels bufferLen : Nat) :
    Nat → Nat → Option (List ℚ)
  | 0, _ => none
  | fuel + 1, j =>
    if j < bufferLen then
      match data[j]?, channelLoop data numChannels bufferLen fuel (j + numChannels) with
      | some d, some rest => some ((d : ℚ) / 0x8000 :: rest)
      | _, _ => none
    else some []

/-- The outer loop `for i := range s` of `AsSamples`, collecting the channels. -/
def collectChannels (f : Nat → Option (List ℚ)) : List Nat → Option (List (List ℚ))
  | [] => some []
  | i :: is =>
    match f i, collectChannels f is with
    | some ch, some rest => some (ch :: rest)
    | _, _ => none

/-- Go `func AsSamples(b audio.Buffer) ([][]float64, error)`; the value `none` is
the nil slice.  On a nil `*audio.IntBuffer` the call `b.PCMFormat()` reads
`buf.Format` through the nil pointer (go-audio v1.0.0) and fails. -/
def AsSamples (b : Buffer) : Outcome (Option (List (List ℚ))) :=
  match b with
  | .nil => .ok none
  | .int none => .fault
  | .int (some ib) =>
    match ib.Format with
    | none => .error .formatNotDefined
    | some f =>
      if f.NumChannels < 0 then .fault
      else
        let numChannels := f.NumChannels.toNat
        let bufferLen := numChannels * NumFrames ib.Data numChannels
        match collectChannels
            (fun i => channelLoop ib.Data numChannels bufferLen (bufferLen + 1) i)
            (List.range numChannels) with
        | some s => .ok (some s)
        | none => .fault
  | .other none => .error .formatNotDefined
  | .other (some f) =>
    if f.NumChannels < 0 then .fault else .error .conversionNotDefined

/-- The inner loop `for j := range s` of `AsBuffer` for frame `i`:
`ib.Data[i*numChannels+j] = int(s[j][i] * 0x7fff)`. -/
def writeFrame (s : List (List ℚ)) (numChannels i : Nat) :
    List Nat → List Int → Option (List Int)
  | [], data => some data
  | j :: js, data =>
    match s[j]?.bind (fun ch => ch[i]?) with
    | none => none
    | some x =>
      if i * numChannels + j < data.length then
        writeFrame s numChannels i js (data.set (i * numChannels + j) (goInt (x * 0x7fff)))
      else none

/-- The outer loop `for i := range s[0]` of `AsBuffer`. -/
def writeFrames (s : List (List ℚ)) (numChannels : Nat) :
    List Nat → List Int → Option (List Int)
  | [], data => some data
  | i :: is, data =>
    match writeFrame s numChannels i (List.range s.length) data with
    | none => none
    | some data' => writeFrames s numChannels is data'

/-- Go `func AsBuffer(b audio.Buffer, s [][]float64) error`; the result is the
buffer after the call. -/
def AsBuffer (b : Buffer) (s : Option (List (List ℚ))) : Outcome Buffer :=
  match b, s with
  | .nil, _ => .ok .nil
  | b, none => .ok b
  | _, some [] => .fault
  | .int none, some (_ :: _) => .fault
  | .int (some ib), some (s0 :: rest) =>
    let numChannels := (s0 :: rest).length
    let bufferLen := numChannels * s0.length
    match writeFrames (s0 :: rest) numChannels (List.range s0.length)
        (List.replicate bufferLen 0) with
    | some data => .ok (.int (some { ib with Data := data }))
    | none => .fault
  | .other _, some (_ :: _) => .error .conversionNotDefined

/-- The channels `AsSamples` computes from `frames` interleaved frames of `nc` channels. -/
def deinterleaved (data : List Int) (nc frames : Nat) : List (List ℚ) :=
  (List.range nc).map (fun c =>
    (List.range frames).map (fun k => ((data.getD (k * nc + c) 0 : Int) : ℚ) / 0x8000))

/-! ## Track compositor (spec.md §3, §4.3; `track/track.go` is not among the sources)

Frames are positions on the timeline that starts at frame 0.  The sample type
`α` is arbitrary, its `0` is silence. -/

/-- Modelled from the spec: the Clip of §3, a non-owning view (parent buffer,
start frame, length) into a Sample Buffer given by its channels; the type is
declared in the absent `phono` buffer code. -/
structure Clip (α : Type) where
  parent : List (List α)
  start : Nat
  length : Nat
  deriving DecidableEq

/-- Modelled from the spec: clip creation of §3, absent from the sources; the
bounds `0 ≤ start` and `start + length ≤ parent length` are validated. -/
def mkClip {α : Type} (parent : List (List α)) (start length : Nat) : Option (Clip α) :=
  if parent.all (fun ch => decide (start + length ≤ ch.length)) then
    some ⟨parent, start, length⟩
  else none

/-- Modelled from the spec: the sample of a clip at frame offset `k` of channel
`ch`, read from the parent buffer (§3); absent from the sources. -/
def Clip.sample {α : Type} [Zero α] (c : Clip α) (ch k : Nat) : α :=
  match c.parent[ch]? with
  | some samples =>
    match samples[c.start + k]? with
    | some x => x
    | none => 0
  | none => 0

/-- Modelled from the spec: the states of the Track state machine of §4.3,
declared in the absent `track/track.go`. -/
inductive TrackState where
  | Idle
  | Streaming
  | Exhausted
  deriving DecidableEq

/-- Modelled from the spec: the Track of §3 (channel count, chunk size, play
cursor, entries in insertion order) with the state of §4.3; declared in the
absent `track/track.go`. -/
structure Track (α : Type) where
  numChannels : Nat
  chunkSize : Nat
  cursor : Nat
  entries : List (Nat × Clip α)
  state : TrackState

/-- Modelled from the spec: `track.New(chunkSize, numChannels)` of the absent
`track/track.go`: created empty, cursor 0, Idle (§3). -/
def Track.New {α : Type} (chunkSize numChannels : Nat) : Track α :=
  ⟨numChannels, chunkSize, 0, [], .Idle⟩

/-- Modelled from the spec: `AddClip` of the absent `track/track.go`: appends an
entry; a clip whose channel count differs from the track's fails the call
(`none`) and leaves the Track as it is (§3, §4.3). -/
def Track.AddClip {α : Type} (t : Track α) (position : Nat) (clip : Clip α) :
    Option (Track α) :=
  if clip.parent.length = t.numChannels then
    some { t with entries := t.entries ++ [(position, clip)] }
  else none

/-- Modelled from the spec: `Reset` of the absent `track/track.go`: clears the
entries, rewinds the cursor to 0, keeps chunk size and channel count (§3). -/
def Track.Reset {α : Type} (t : Track α) : Track α :=
  { t with entries := [], cursor := 0, state := .Idle }

/-- A sequence of `AddClip` calls; a failing call leaves the Track unchanged. -/
def Track.addClips {α : Type} (t : Track α) (calls : List (Nat × Clip α)) : Track α :=
  calls.foldl (fun t call =>
    match t.AddClip call.1 call.2 with
    | some t' => t'
    | none => t) t

/-- The calls of a sequence of `AddClip(position, clip)` calls that succeed on a
Track of `numChannels` channels, in call order: those whose clip has the
track's channel count (§3). -/
def acceptedCalls {α : Type} (numChannels : Nat) (calls : List (Nat × Clip α)) :
    List (Nat × Clip α) :=
  calls.filter (fun call => decide (call.2.parent.length = numChannels))

/-- Modelled from the spec: step 3 of the render algorithm of §4.3 for one entry
and one channel, absent from the sources: when the placement interval
`[position, position + clipLength)` intersects the window
`[cursor, cursor + chunkSize)`, the intersecting samples are copied into the
chunk buffer at the corresponding offset, overwriting what is there. -/
def copyClip {α : Type} [Zero α] (cursor chunkSize ch : Nat) (buf : List α)
    (e : Nat × Clip α) : List α :=
  let lo := max cursor e.1
  let hi := min (cursor + chunkSize) (e.1 + e.2.length)
  if lo < hi then
    (List.range' lo (hi - lo)).foldl
      (fun b f => b.set (f - cursor) (e.2.sample ch (f - e.1))) buf
  else buf

/-- Modelled from the spec: steps 1 to 3 of the render algorithm of §4.3 for one
channel, absent from the sources: a zero-initialised buffer of `chunkSize`
frames into which the entries are copied in insertion order. -/
def renderChannel {α : Type} [Zero α] (cursor chunkSize : Nat)
    (entries : List (Nat × Clip α)) (ch : Nat) : List α :=
  entries.foldl (copyClip cursor chunkSize ch) (List.replicate chunkSize 0)

/-- Modelled from the spec: the maximum of `position + clipLength` across all
entries (§4.3 step 4), absent from the sources; 0 for no entry. -/
def maxExtent {α : Type} (entries : List (Nat × Clip α)) : Nat :=
  entries.foldl (fun m e => max m (e.1 + e.2.length)) 0

/-- Modelled from the spec: one pull of the Track as a Pump (§4.3, steps 1 to 5),
the `Pump` of the absent `track/track.go`: an Exhausted Track yields
end-of-stream (`none`); otherwise the chunk is rendered per channel, the cursor
advances by the chunk size and the Track is Exhausted after this chunk if the new
cursor exceeds the maximum extent. -/
def Track.pull {α : Type} [Zero α] (t : Track α) : Option (List (List α) × Track α) :=
  if t.state = .Exhausted then none
  else
    let chunk := (List.range t.numChannels).map
      (renderChannel t.cursor t.chunkSize t.entries)
    let cursor' := t.cursor + t.chunkSize
    some (chunk, { t with
      cursor := cursor'
      state := if cursor' > maxExtent t.entries then .Exhausted else .Streaming })

/-- The run of the Track as a Pump: the chunks pulled until end-of-stream;
`none` when `fuel` pulls do not reach end-of-stream. -/
def Track.drain {α : Type} [Zero α] : Nat → Track α → Option (List (List (List α)))
  | 0, _ => none
  | fuel + 1, t =>
    match t.pull with
    | none => some []
    | some (chunk, t') =>
      match Track.drain fuel t' with
      | some chunks => some (chunk :: chunks)
      | none => none

/-- The samples of channel `ch` a sink receives: the concatenation of the chunks. -/
def sinkChannel {α : Type} (chunks : List (List (List α))) (ch : Nat) : List α :=
  (chunks.map (fun chunk => match chunk[ch]? with
    | some samples => samples
    | none => [])).flatten

/-- The composed timeline as the specification words it: at frame `f` the sample
of the most recently appended entry whose interval `[position, position + clipLength)`
contains `f`, taken at clip offset `f - position`, and 0 when no entry contains `f`. -/
def composed {α : Type} [Zero α] (entries : List (Nat × Clip α)) (ch f : Nat) : α :=
  match entries.reverse.find? (fun e => decide (e.1 ≤ f ∧ f < e.1 + e.2.length)) with
  | some e => e.2.sample ch (f - e.1)
  | none => 0

/-! ## Theorems: Go maps -/

section MapLemmas

variable {K V : Type} [DecidableEq K]

theorem mapGet_mapSet (m : List (K × V)) (k k' : K) (v : V) :
    mapGet (mapSet m k v) k' = if k = k' then some v else mapGet m k' := by
  induction m with
  | nil => simp [mapSet, mapGet]
  | cons e rest ih =>
    obtain ⟨k0, v0⟩ := e
    by_cases h0 : k0 = k
    · subst h0
      by_cases h1 : k0 = k' <;> simp [mapSet, mapGet, h1]
    · by_cases h1 : k0 = k'
      · subst h1
        have : ¬ k = k0 := fun e => h0 e.symm
        simp [mapSet, mapGet, h0, this]
      · simp [mapSet, mapGet, h0, h1, ih]

theorem mapGet_eq_none_of_not_mem (m : List (K × V)) (k : K)
    (hk : k ∉ m.map Prod.fst) : mapGet m k = none := by
  induction m with
  | nil => rfl
  | cons e rest ih =>
    obtain ⟨k0, v0⟩ := e
    simp only [List.map_cons, List.mem_cons, not_or] at hk
    have h0 : ¬ k0 = k := fun e => hk.1 e.symm
    simp [mapGet, h0, ih hk.2]

theorem mem_of_mapGet (m : List (K × V)) (k : K) (v : V)
    (hk : mapGet m k = some v) : (k, v) ∈ m := by
  induction m with
  | nil => simp [mapGet] at hk
  | cons e rest ih =>
    obtain ⟨k0, v0⟩ := e
    by_cases h0 : k0 = k
    · subst h0
      simp [mapGet] at hk
      simp [hk]
    · simp [mapGet, h0] at hk
      exact List.mem_cons_of_mem _ (ih hk)

theorem mem_mapSet (m : List (K × V)) (k : K) (v : V) (e : K × V)
    (he : e ∈ mapSet m k v) : e = (k, v) ∨ e ∈ m := by
  induction m with
  | nil => simpa [mapSet] using he
  | cons e0 rest ih =>
    obtain ⟨k0, v0⟩ := e0
    by_cases h0 : k0 = k
    · subst h0
      simp only [mapSet, if_true, List.mem_cons] at he
      rcases he with he | he
      · exact Or.inl he
      · exact Or.inr (List.mem_cons_of_mem _ he)
    · simp only [mapSet, h0, if_false, List.mem_cons] at he
      rcases he with he | he
      · exact Or.inr (by simp [he])
      · rcases ih he with h1 | h1
        · exact Or.inl h1
        · exact Or.inr (List.mem_cons_of_mem _ h1)

theorem keys_mapSet (m : List (K × V)) (k : K) (v : V) :
    (mapSet m k v).map Prod.fst =
      if k ∈ m.map Prod.fst then m.map Prod.fst else m.map Prod.fst ++ [k] := by
  induction m with
  | nil => simp [mapSet]
  | cons e0 rest ih =>
    obtain ⟨k0, v0⟩ := e0
    by_cases h0 : k0 = k
    · subst h0
      simp [mapSet]
    · have h1 : ¬ k = k0 := fun e => h0 e.symm
      simp only [mapSet, h0, if_false, List.map_cons, ih, List.mem_cons, h1, false_or]
      split <;> simp

theorem distinctKeys_mapSet (m : List (K × V)) (k : K) (v : V)
    (hm : DistinctKeys m) : DistinctKeys (mapSet m k v) := by
  unfold DistinctKeys at *
  rw [keys_mapSet]
  split
  · exact hm
  · rename_i hk
    exact List.Nodup.append hm (List.nodup_singleton k) (by simpa using hk)

end MapLemmas

/-! ## Theorems: Params -/

section ParamsLemmas

variable {K A : Type} [DecidableEq K]

theorem joinEntry_none_right (x : Option (List A)) : joinEntry x none = x := by
  cases x <;> rfl

theorem mapGet_joinStep (m : List (K × List A)) (e : K × List A) (c : K) :
    mapGet (joinStep m e) c =
      if e.1 = c then joinEntry (mapGet m c) (some e.2) else mapGet m c := by
  unfold joinStep
  cases hg : mapGet m e.1 with
  | none =>
    simp only [mapGet_mapSet]
    by_cases hc : e.1 = c
    · subst hc; simp [hg, joinEntry]
    · simp [hc]
  | some old =>
    simp only [mapGet_mapSet]
    by_cases hc : e.1 = c
    · subst hc; simp [hg, joinEntry]
    · simp [hc]

theorem mapGet_foldl_joinStep (es : List (K × List A)) (hd : DistinctKeys es)
    (m : List (K × List A)) (c : K) :
    mapGet (es.foldl joinStep m) c = joinEntry (mapGet m c) (mapGet es c) := by
  induction es generalizing m with
  | nil => simp [mapGet, joinEntry_none_right]
  | cons e rest ih =>
    obtain ⟨k, vs⟩ := e
    have hd' : k ∉ rest.map Prod.fst ∧ DistinctKeys rest := by
      simpa [DistinctKeys] using hd
    rw [List.foldl_cons, ih hd'.2, mapGet_joinStep]
    by_cases hc : k = c
    · subst hc
      simp [mapGet, mapGet_eq_none_of_not_mem rest k hd'.1, joinEntry_none_right]
    · simp [mapGet, hc]

theorem distinctKeys_joinStep (m : List (K × List A)) (e : K × List A)
    (hm : DistinctKeys m) : DistinctKeys (joinStep m e) := by
  unfold joinStep
  split <;> exact distinctKeys_mapSet _ _ _ hm

theorem distinctKeys_foldl_joinStep (es m : List (K × List A))
    (hm : DistinctKeys m) : DistinctKeys (es.foldl joinStep m) := by
  induction es generalizing m with
  | nil => exact hm
  | cons e rest ih => exact ih _ (distinctKeys_joinStep m e hm)

theorem addLoop_some (ps : List (Param K A)) (m : List (K × List A)) :
    ∃ m', addLoop (some m) ps = some (some m') ∧
      ∀ c, (mapGet m' c).getD [] = (mapGet m c).getD [] ++ addedFor ps c := by
  induction ps generalizing m with
  | nil => exact ⟨m, rfl, fun c => by simp [addedFor]⟩
  | cons q rest ih =>
    obtain ⟨m', hm', hget⟩ := ih (mapSet m q.Consumer
      ((match mapGet m q.Consumer with | some l => l | none => []) ++ [q.Apply]))
    refine ⟨m', by simpa [addLoop, addStep] using hm', fun c => ?_⟩
    rw [hget c, mapGet_mapSet]
    by_cases hc : q.Consumer = c
    · subst hc
      cases hg : mapGet m q.Consumer <;> simp [addedFor]
    · simp [addedFor, hc]

theorem actionsOf_eq (h : Heap K A) (a : Nat) (P : Params K A) (hP : h[a]? = some P)
    (c : K) : actionsOf h (some a) c = ((P.priv.bind (fun m => mapGet m c))).getD [] := by
  simp only [actionsOf, hP]
  cases P.priv.bind (fun m => mapGet m c) <;> rfl

theorem entryOf_eq (h : Heap K A) (a : Nat) (P : Params K A) (hP : h[a]? = some P)
    (c : K) : entryOf h (some a) c = P.priv.bind (fun m => mapGet m c) := by
  simp only [entryOf, hP]

theorem getD_joinEntry (x y : Option (List A)) :
    (joinEntry x y).getD [] = x.getD [] ++ y.getD [] := by
  cases x <;> cases y <;> simp [joinEntry]

theorem getElem?_set_self_of_some {T : Type} (h : List T) (a : Nat) (x y : T)
    (hx : h[a]? = some x) : (h.set a y)[a]? = some y := by
  have hlt : a < h.length := by
    by_contra hge
    rw [List.getElem?_eq_none (by omega)] at hx
    exact Option.noConfusion hx
  simp [List.getElem?_set, hlt]

end ParamsLemmas

section ParamsTheorems

variable {K A : Type} [DecidableEq K]

/-- C1: for a non-empty receiver `p` and a non-nil source `s`, `p.Join(s)`
returns the receiver `p`; afterwards, for every consumer `c`, the entry of `p`
is its previous list followed by the list of `s` (a consumer present on one
side only keeps that side's list, a consumer absent on both sides stays
absent), so the action list of `p` for `c` is the previous one of `p` followed
by the one of `s`, each in its original order. -/
theorem Join_nonempty_receiver (h : Heap K A) (a b : Nat) (P S : Params K A)
    (hP : h[a]? = some P) (hne : P.Empty = false) (hS : h[b]? = some S)
    (hd : DistinctKeys S.entries) :
    ∃ h', Join h (some a) (some b) = some (some a, h') ∧
      (∀ c, entryOf h' (some a) c =
        joinEntry (entryOf h (some a) c) (entryOf h (some b) c)) ∧
      (∀ c, actionsOf h' (some a) c =
        actionsOf h (some a) c ++ actionsOf h (some b) c) := by
  obtain ⟨pm⟩ := P
  cases pm with
  | none => simp [Params.Empty] at hne
  | some m =>
    refine ⟨h.set a ⟨some (S.entries.foldl joinStep m)⟩, ?_, ?_, ?_⟩
    · simp [Join, hP, hS, hne]
    · have key : ∀ c, entryOf (h.set a ⟨some (S.entries.foldl joinStep m)⟩) (some a) c =
          joinEntry (entryOf h (some a) c) (entryOf h (some b) c) := by
        intro c
        rw [entryOf_eq _ a _ (getElem?_set_self_of_some h a _ _ hP), entryOf_eq h a _ hP,
          entryOf_eq h b _ hS]
        simp only [Option.some_bind]
        rw [mapGet_foldl_joinStep _ hd]
        obtain ⟨sm⟩ := S
        cases sm <;> simp [Params.entries, mapGet]
      exact key
    · intro c
      rw [actionsOf_eq _ a _ (getElem?_set_self_of_some h a _ _ hP), actionsOf_eq h a _ hP,
        actionsOf_eq h b _ hS]
      simp only [Option.some_bind]
      rw [mapGet_foldl_joinStep _ hd, getD_joinEntry]
      obtain ⟨sm⟩ := S
      cases sm <;> simp [Params.entries, mapGet]

/-- Witness of C1 on a heap with a receiver holding one consumer and a source
holding two. -/
theorem Join_nonempty_receiver_witness :
    ∃ h', Join ([⟨some [(1, [10])]⟩, ⟨some [(1, [20]), (2, [30])]⟩] : Heap Nat Nat)
        (some 0) (some 1) = some (some 0, h') ∧
      (∀ c, entryOf h' (some 0) c =
        joinEntry (entryOf [⟨some [(1, [10])]⟩, ⟨some [(1, [20]), (2, [30])]⟩] (some 0) c)
          (entryOf [⟨some [(1, [10])]⟩, ⟨some [(1, [20]), (2, [30])]⟩] (some 1) c)) ∧
      (∀ c, actionsOf h' (some 0) c =
        actionsOf [⟨some [(1, [10])]⟩, ⟨some [(1, [20]), (2, [30])]⟩] (some 0) c ++
          actionsOf [⟨some [(1, [10])]⟩, ⟨some [(1, [20]), (2, [30])]⟩] (some 1) c) :=
  Join_nonempty_receiver _ 0 1 ⟨some [(1, [10])]⟩ ⟨some [(1, [20]), (2, [30])]⟩
    rfl rfl rfl (by simp [DistinctKeys, Params.entries])

/-- C2: when the receiver is nil or has no consumer keys (nil map or map
without entries), `p.Join(s)` returns exactly the argument `s` and changes no
object, so every consumer's action list of `s` is the one it had before. -/
theorem Join_empty_receiver (h : Heap K A) (p s : Ptr)
    (hp : p = none ∨ ∃ a P, p = some a ∧ h[a]? = some P ∧ P.entries = []) :
    Join h p s = some (s, h) ∧
      ∀ r h', Join h p s = some (r, h') →
        r = s ∧ ∀ c, entryOf h' r c = entryOf h s c := by
  have main : Join h p s = some (s, h) := by
    rcases hp with hp | ⟨a, P, hp, hP, hE⟩
    · subst hp; rfl
    · subst hp
      obtain ⟨pm⟩ := P
      cases pm with
      | none => simp [Join, hP, Params.Empty]
      | some m =>
        have hm : m = [] := by simpa [Params.entries] using hE
        subst hm
        simp [Join, hP, Params.Empty]
  refine ⟨main, fun r h' hr => ?_⟩
  rw [main] at hr
  simp only [Option.some.injEq, Prod.mk.injEq] at hr
  obtain ⟨h1, h2⟩ := hr
  subst h1; subst h2
  exact ⟨rfl, fun _ => rfl⟩

/-- Witness of C2: an empty receiver joined with a source holding two consumers. -/
theorem Join_empty_receiver_witness :
    Join ([⟨some []⟩, ⟨some [(1, [20]), (2, [30])]⟩] : Heap Nat Nat) (some 0) (some 1) =
        some (some 1, [⟨some []⟩, ⟨some [(1, [20]), (2, [30])]⟩]) ∧
      ∀ r h', Join ([⟨some []⟩, ⟨some [(1, [20]), (2, [30])]⟩] : Heap Nat Nat)
          (some 0) (some 1) = some (r, h') →
        r = some 1 ∧ ∀ c, entryOf h' r c =
          entryOf ([⟨some []⟩, ⟨some [(1, [20]), (2, [30])]⟩] : Heap Nat Nat) (some 1) c :=
  Join_empty_receiver _ (some 0) (some 1) (Or.inr ⟨0, ⟨some []⟩, rfl, rfl, rfl⟩)

/-- C3: on a valid pointer, `p.ApplyTo(c)` transforms the state by the
left-to-right composition of the action list registered for `c`; the state is
unchanged when `c` has no registered action; and the result depends on the
entry of `c` alone, so no action registered for another consumer runs. -/
theorem ApplyTo_runs_registered {σ : Type} (h : Heap K (σ → σ)) (p : Ptr)
    (hp : ValidPtr h p) (c : K) (st : σ) :
    ApplyTo h p c st = some ((actionsOf h p c).foldl (fun s f => f s) st) ∧
      (actionsOf h p c = [] → ApplyTo h p c st = some st) ∧
      (∀ (h2 : Heap K (σ → σ)) (p2 : Ptr), ValidPtr h2 p2 →
        entryOf h2 p2 c = entryOf h p c → ApplyTo h2 p2 c st = ApplyTo h p c st) := by
  have gen : ∀ (g : Heap K (σ → σ)) (q : Ptr), ValidPtr g q →
      ApplyTo g q c st = some (((entryOf g q c).getD []).foldl (fun s f => f s) st) ∧
      actionsOf g q c = (entryOf g q c).getD [] := by
    intro g q hq
    cases q with
    | none => simp [ApplyTo, entryOf, actionsOf]
    | some a =>
      have hlt : a < g.length := hq
      simp only [ApplyTo, entryOf, actionsOf, List.getElem?_eq_getElem hlt]
      cases (g[a]).priv.bind (fun m => mapGet m c) <;> simp
  obtain ⟨h1, h2⟩ := gen h p hp
  refine ⟨by rw [h1, h2], fun he => ?_, fun g q hq he => ?_⟩
  · rw [h1, ← h2, he]; rfl
  · rw [(gen g q hq).1, h1, he]

/-- Witness of C3: two actions registered for consumer 1 run in order, the
action registered for consumer 2 does not run. -/
theorem ApplyTo_runs_registered_witness :
    ApplyTo ([⟨some [(1, [fun n => n + 1, fun n => n * 2]), (2, [fun _ => 0])]⟩] :
        Heap Nat (Nat → Nat)) (some 0) 1 5 = some 12 := by
  have hw := (ApplyTo_runs_registered
    ([⟨some [(1, [fun n => n + 1, fun n => n * 2]), (2, [fun _ => 0])]⟩] :
      Heap Nat (Nat → Nat)) (some 0) (by simp [ValidPtr]) 1 5).1
  rw [hw]
  rfl

/-- Helper: `NewParams` always succeeds, returns a fresh non-nil pointer and the
object it points to has an initialised (non-nil) map. -/
theorem NewParams_initialised (h : Heap K A) (ps : List (Param K A)) :
    ∃ h' m, NewParams h ps = some (some h.length, h') ∧
      h'[h.length]? = some ⟨some m⟩ := by
  obtain ⟨m', hm', _⟩ := addLoop_some ps ([] : List (K × List A))
  refine ⟨(h ++ [Params.mk (some [])]).set h.length (Params.mk (some m')), m', ?_, ?_⟩
  · simp [NewParams, Add, hm']
  · simp [List.getElem?_set]

/-- C4: on a Params with an initialised map (as `NewParams` creates it),
`p.Add(ps...)` returns `p`; afterwards the action list of `p` for every
consumer `c` is its previous list followed by the actions of the pairs of `ps`
for `c`, in their order in `ps`, so nothing registered in `p` before is
removed, replaced or reordered and a pair added twice is registered twice. -/
theorem Add_appends (h : Heap K A) (a : Nat) (m : List (K × List A))
    (hP : h[a]? = some ⟨some m⟩) (ps : List (Param K A)) :
    ∃ h', Add h (some a) ps = some (some a, h') ∧
      (∀ c, actionsOf h' (some a) c = actionsOf h (some a) c ++ addedFor ps c) := by
  obtain ⟨m', hm', hget⟩ := addLoop_some ps m
  refine ⟨h.set a ⟨some m'⟩, by simp [Add, hP, hm'], fun c => ?_⟩
  rw [actionsOf_eq _ a _ (getElem?_set_self_of_some h a _ _ hP), actionsOf_eq h a _ hP]
  simpa using hget c

/-- Witness of C4: adding the same pair twice registers the action twice. -/
theorem Add_appends_witness :
    ∃ h', Add ([⟨some [(1, [10])]⟩] : Heap Nat Nat) (some 0) [⟨1, 7⟩, ⟨2, 8⟩, ⟨1, 7⟩] =
        some (some 0, h') ∧
      (∀ c, actionsOf h' (some 0) c =
        actionsOf ([⟨some [(1, [10])]⟩] : Heap Nat Nat) (some 0) c ++
          addedFor [⟨1, 7⟩, ⟨2, 8⟩, ⟨1, 7⟩] c) :=
  Add_appends _ 0 [(1, [10])] rfl [⟨1, 7⟩, ⟨2, 8⟩, ⟨1, 7⟩]

/-- C7 (counterexample): `Empty` has a value receiver, so the call through a nil
`*Params` dereferences nil and fails instead of returning true. -/
theorem Empty_nil_pointer_fails :
    callEmpty ([] : Heap Nat Nat) none = none ∧
      ¬ callEmpty ([] : Heap Nat Nat) none = some true :=
  ⟨rfl, by decide⟩

/-- C7 (amended): on a nil receiver `Add` returns nil and registers nothing and
`ApplyTo` runs no action and leaves the state unchanged; `Empty`, declared on
the value type, never fails when called on an allocated Params and returns true
for the zero value, whose map is nil. -/
theorem nil_receiver_safe {σ : Type} (h : Heap K (σ → σ)) (ps : List (Param K (σ → σ)))
    (c : K) (st : σ) :
    Add h none ps = some (none, h) ∧
      ApplyTo h none c st = some st ∧
      (∀ a P, h[a]? = some P → callEmpty h (some a) = some P.Empty) ∧
      (Params.mk none : Params K (σ → σ)).Empty = true := by
  refine ⟨rfl, rfl, fun a P hP => ?_, rfl⟩
  simp [callEmpty, hP]

/-- Witness of C7 (amended): `Empty` through a pointer to the zero value. -/
theorem nil_receiver_safe_witness :
    callEmpty ([⟨none⟩] : Heap Nat (Nat → Nat)) (some 0) = some true :=
  (nil_receiver_safe ([⟨none⟩] : Heap Nat (Nat → Nat)) [] 0 0).2.2.1 0 ⟨none⟩ rfl

/-- C8 (counterexample): a non-empty receiver joined with a nil source fails
on the dereference `source.private`. -/
theorem Join_nil_source_fails :
    Join ([⟨some [(1, [10])]⟩] : Heap Nat Nat) (some 0) none = none ∧
      ¬ ∃ r, Join ([⟨some [(1, [10])]⟩] : Heap Nat Nat) (some 0) none = some r :=
  ⟨rfl, by simp [Join, Params.Empty]⟩

/-- C8 (amended): `Join` completes and returns a valid pointer for every
receiver when the source is non-nil, and for every source (nil included) when
the receiver is nil or empty. -/
theorem Join_completes (h : Heap K A) (p s : Ptr) (hp : ValidPtr h p)
    (hs : ValidPtr h s)
    (hsrc : s ≠ none ∨ p = none ∨ ∃ a P, p = some a ∧ h[a]? = some P ∧ P.Empty = true) :
    ∃ r h', Join h p s = some (r, h') ∧ ValidPtr h' r := by
  cases p with
  | none => exact ⟨s, h, rfl, hs⟩
  | some a =>
    have hlt : a < h.length := hp
    have hP : h[a]? = some h[a] := List.getElem?_eq_getElem hlt
    by_cases hE : (h[a]).Empty = true
    · exact ⟨s, h, by simp [Join, hP, hE], hs⟩
    · have hs' : s ≠ none := by
        rcases hsrc with h1 | h1 | ⟨a', P, h1, h2, h3⟩
        · exact h1
        · exact Option.noConfusion h1
        · simp only [Option.some.injEq] at h1
          subst h1
          rw [hP] at h2
          simp only [Option.some.injEq] at h2
          rw [h2] at hE
          exact absurd h3 hE
      cases s with
      | none => exact absurd rfl hs'
      | some b =>
        have hlb : b < h.length := hs
        have hS : h[b]? = some h[b] := List.getElem?_eq_getElem hlb
        cases hm : (h[a]).priv with
        | none => simp [Params.Empty, hm] at hE
        | some m =>
          refine ⟨some a, h.set a ⟨some ((h[b]).entries.foldl joinStep m)⟩, ?_, ?_⟩
          · simp [Join, hP, hS, hE, hm]
          · simpa [ValidPtr] using hlt

/-- Witness of C8 (amended): a non-empty receiver and a non-nil source. -/
theorem Join_completes_witness :
    ∃ r h', Join ([⟨some [(1, [10])]⟩, ⟨none⟩] : Heap Nat Nat) (some 0) (some 1) =
      some (r, h') ∧ ValidPtr h' r :=
  Join_completes _ (some 0) (some 1) (by simp [ValidPtr]) (by simp [ValidPtr])
    (Or.inl (by simp))

/-- Every entry of the map holds a non-empty action list. -/
theorem nonEmpty_mapSet (m : List (K × List A)) (k : K) (v : List A)
    (hm : ∀ e ∈ m, e.2 ≠ []) (hv : v ≠ []) : ∀ e ∈ mapSet m k v, e.2 ≠ [] := by
  intro e he
  rcases mem_mapSet m k v e he with h1 | h1
  · rw [h1]; exact hv
  · exact hm e h1

theorem nonEmpty_addLoop (ps : List (Param K A)) (om om' : Option (List (K × List A)))
    (hl : addLoop om ps = some om') (hm : ∀ m, om = some m → ∀ e ∈ m, e.2 ≠ []) :
    ∀ m', om' = some m' → ∀ e ∈ m', e.2 ≠ [] := by
  induction ps generalizing om with
  | nil =>
    simp only [addLoop, Option.some.injEq] at hl
    subst hl
    exact hm
  | cons q rest ih =>
    cases om with
    | none => simp [addLoop, addStep] at hl
    | some m =>
      simp only [addLoop, addStep] at hl
      refine ih _ hl ?_
      intro m1 hm1
      simp only [Option.some.injEq] at hm1
      subst hm1
      exact nonEmpty_mapSet m _ _ (hm m rfl) (by simp)

theorem nonEmpty_foldl_joinStep (es m : List (K × List A))
    (hes : ∀ e ∈ es, e.2 ≠ []) (hm : ∀ e ∈ m, e.2 ≠ []) :
    ∀ e ∈ es.foldl joinStep m, e.2 ≠ [] := by
  induction es generalizing m with
  | nil => exact hm
  | cons e0 rest ih =>
    refine ih _ (fun e he => hes e (List.mem_cons_of_mem _ he)) ?_
    unfold joinStep
    cases hg : mapGet m e0.1 with
    | none => exact nonEmpty_mapSet m _ _ hm (hes e0 (List.mem_cons_self _ _))
    | some old =>
      refine nonEmpty_mapSet m _ _ hm ?_
      have : old ≠ [] := hm _ (mem_of_mapGet m e0.1 old hg)
      simp [this]

/-- The heap invariant of C9: every entry of every object holds a non-empty
action list. -/
theorem nonEmpty_Add (h h' : Heap K A) (p r : Ptr) (ps : List (Param K A))
    (hA : Add h p ps = some (r, h')) (hI : ∀ P ∈ h, ∀ e ∈ P.entries, e.2 ≠ []) :
    ∀ P ∈ h', ∀ e ∈ P.entries, e.2 ≠ [] := by
  cases p with
  | none =>
    simp only [Add, Option.some.injEq, Prod.mk.injEq] at hA
    rw [← hA.2]; exact hI
  | some a =>
    simp only [Add] at hA
    cases hP : h[a]? with
    | none => simp [hP] at hA
    | some P0 =>
      cases hl : addLoop P0.priv ps with
      | none => simp [hP, hl] at hA
      | some om' =>
        simp only [hP, hl, Option.some.injEq, Prod.mk.injEq] at hA
        rw [← hA.2]
        intro P hPm
        rcases List.mem_or_eq_of_mem_set hPm with h1 | h1
        · exact hI P h1
        · subst h1
          have hP0 : P0 ∈ h := List.getElem?_mem hP
          intro e he
          cases hom : om' with
          | none => simp [Params.entries, hom] at he
          | some m' =>
            refine nonEmpty_addLoop ps P0.priv om' hl ?_ m' hom e
              (by simpa [Params.entries, hom] using he)
            intro m hm e1 he1
            exact hI P0 hP0 e1 (by simpa [Params.entries, hm] using he1)

theorem nonEmpty_Join (h h' : Heap K A) (p s r : Ptr)
    (hJ : Join h p s = some (r, h')) (hI : ∀ P ∈ h, ∀ e ∈ P.entries, e.2 ≠ []) :
    ∀ P ∈ h', ∀ e ∈ P.entries, e.2 ≠ [] := by
  cases p with
  | none =>
    simp only [Join, Option.some.injEq, Prod.mk.injEq] at hJ
    rw [← hJ.2]; exact hI
  | some a =>
    simp only [Join] at hJ
    cases hP : h[a]? with
    | none => simp [hP] at hJ
    | some P0 =>
      by_cases hE : P0.Empty = true
      · simp only [hP, hE, if_true, Option.some.injEq, Prod.mk.injEq] at hJ
        rw [← hJ.2]; exact hI
      · cases s with
        | none => simp [hP, hE] at hJ
        | some b =>
          cases hS : h[b]? with
          | none => simp [hP, hE, hS] at hJ
          | some S0 =>
            cases hm : P0.priv with
            | none => simp [hP, hE, hS, hm] at hJ
            | some m =>
              have hE' : P0.Empty = false := by simpa using hE
              simp only [hP, hE', hS, hm, Bool.false_eq_true, if_false,
                Option.some.injEq, Prod.mk.injEq] at hJ
              rw [← hJ.2]
              intro P hPm
              rcases List.mem_or_eq_of_mem_set hPm with h1 | h1
              · exact hI P h1
              · subst h1
                have hP0 : P0 ∈ h := List.getElem?_mem hP
                have hS0 : S0 ∈ h := List.getElem?_mem hS
                intro e he
                refine nonEmpty_foldl_joinStep S0.entries m (hI S0 hS0) ?_ e
                  (by simpa [Params.entries] using he)
                intro e1 he1
                exact hI P0 hP0 e1 (by simpa [Params.entries, hm] using he1)

theorem nonEmpty_of_Reachable (h : Heap K A) (hr : Reachable h) :
    ∀ P ∈ h, ∀ e ∈ P.entries, e.2 ≠ [] := by
  induction hr with
  | init => intro P hP; simp at hP
  | newParams ps _ hN ih =>
    refine nonEmpty_Add _ _ _ _ ps hN ?_
    intro P hP
    rcases List.mem_append.mp hP with h1 | h1
    · exact ih P h1
    · simp only [List.mem_singleton] at h1
      subst h1
      intro e he
      simp [Params.entries] at he
  | add p ps _ hA ih => exact nonEmpty_Add _ _ p _ ps hA ih
  | join p s _ hJ ih => exact nonEmpty_Join _ _ p s _ hJ ih

/-- C9: in every heap reachable through `NewParams`, `Add` and `Join`, every
consumer key present in the map of a Params has a non-empty action list;
hence `Empty()` is true exactly when no consumer has a registered action, and
then `ApplyTo` leaves the state unchanged for every consumer. -/
theorem Reachable_Empty_iff {σ : Type} (h : Heap K (σ → σ)) (hr : Reachable h)
    (a : Nat) (P : Params K (σ → σ)) (hP : h[a]? = some P) :
    (∀ k l, (k, l) ∈ P.entries → l ≠ []) ∧
      (P.Empty = true ↔ ∀ c, actionsOf h (some a) c = []) ∧
      (P.Empty = true → ∀ c st, ApplyTo h (some a) c st = some st) := by
  have hI := nonEmpty_of_Reachable h hr P (List.getElem?_mem hP)
  have hfwd : P.Empty = true → ∀ c, P.priv.bind (fun m => mapGet m c) = none := by
    intro hE c
    obtain ⟨pm⟩ := P
    cases pm with
    | none => rfl
    | some m =>
      have : m = [] := by
        cases m with
        | nil => rfl
        | cons e rest => simp [Params.Empty] at hE
      subst this
      rfl
  refine ⟨fun k l hm => hI (k, l) hm, ⟨fun hE c => ?_, fun hall => ?_⟩, fun hE c st => ?_⟩
  · rw [actionsOf_eq h a P hP, hfwd hE c]; rfl
  · obtain ⟨pm⟩ := P
    cases pm with
    | none => rfl
    | some m =>
      cases m with
      | nil => rfl
      | cons e rest =>
        exfalso
        have h1 := hall e.1
        rw [actionsOf_eq h a _ hP] at h1
        simp only [Option.some_bind, mapGet, if_true, Option.getD_some] at h1
        exact hI e (by simp [Params.entries]) h1
  · simp only [ApplyTo, hP, hfwd hE c]

/-- Witness of C9 on the heap built by `NewParams` with one pair. -/
theorem Reachable_Empty_iff_witness :
    (∀ k l, (k, l) ∈ (Params.mk (some [(1, [fun n : Nat => n + 1])])).entries → l ≠ []) ∧
      ((Params.mk (some [(1, [fun n : Nat => n + 1])])).Empty = true ↔
        ∀ c, actionsOf ([⟨some [(1, [fun n : Nat => n + 1])]⟩] : Heap Nat (Nat → Nat))
          (some 0) c = []) ∧
      ((Params.mk (some [(1, [fun n : Nat => n + 1])])).Empty = true →
        ∀ c st, ApplyTo ([⟨some [(1, [fun n : Nat => n + 1])]⟩] : Heap Nat (Nat → Nat))
          (some 0) c st = some st) :=
  Reachable_Empty_iff ([⟨some [(1, [fun n : Nat => n + 1])]⟩] : Heap Nat (Nat → Nat))
    (Reachable.newParams [⟨1, fun n : Nat => n + 1⟩] Reachable.init rfl) 0 _ rfl

/-- Helper: the loop of `Add` keeps the keys pairwise distinct, the
well-formedness that the join theorem assumes of the source. -/
theorem distinctKeys_addLoop (ps : List (Param K A)) (om om' : Option (List (K × List A)))
    (hl : addLoop om ps = some om') (hm : ∀ m, om = some m → DistinctKeys m) :
    ∀ m', om' = some m' → DistinctKeys m' := by
  induction ps generalizing om with
  | nil =>
    simp only [addLoop, Option.some.injEq] at hl
    subst hl
    exact hm
  | cons q rest ih =>
    cases om with
    | none => simp [addLoop, addStep] at hl
    | some m =>
      simp only [addLoop, addStep] at hl
      refine ih _ hl ?_
      intro m1 hm1
      simp only [Option.some.injEq] at hm1
      subst hm1
      exact distinctKeys_mapSet m _ _ (hm m rfl)

theorem distinctKeys_Add (h h' : Heap K A) (p r : Ptr) (ps : List (Param K A))
    (hA : Add h p ps = some (r, h')) (hI : ∀ P ∈ h, DistinctKeys P.entries) :
    ∀ P ∈ h', DistinctKeys P.entries := by
  cases p with
  | none =>
    simp only [Add, Option.some.injEq, Prod.mk.injEq] at hA
    rw [← hA.2]; exact hI
  | some a =>
    simp only [Add] at hA
    cases hP : h[a]? with
    | none => simp [hP] at hA
    | some P0 =>
      cases hl : addLoop P0.priv ps with
      | none => simp [hP, hl] at hA
      | some om' =>
        simp only [hP, hl, Option.some.injEq, Prod.mk.injEq] at hA
        rw [← hA.2]
        intro P hPm
        rcases List.mem_or_eq_of_mem_set hPm with h1 | h1
        · exact hI P h1
        · subst h1
          have hP0 : P0 ∈ h := List.getElem?_mem hP
          cases hom : om' with
          | none => simp [Params.entries, DistinctKeys]
          | some m' =>
            have := distinctKeys_addLoop ps P0.priv om' hl (fun m hm => by
              have h2 := hI P0 hP0
              simpa [Params.entries, hm] using h2) m' hom
            simpa [Params.entries] using this

theorem distinctKeys_Join (h h' : Heap K A) (p s r : Ptr)
    (hJ : Join h p s = some (r, h')) (hI : ∀ P ∈ h, DistinctKeys P.entries) :
    ∀ P ∈ h', DistinctKeys P.entries := by
  cases p with
  | none =>
    simp only [Join, Option.some.injEq, Prod.mk.injEq] at hJ
    rw [← hJ.2]; exact hI
  | some a =>
    simp only [Join] at hJ
    cases hP : h[a]? with
    | none => simp [hP] at hJ
    | some P0 =>
      by_cases hE : P0.Empty = true
      · simp only [hP, hE, if_true, Option.some.injEq, Prod.mk.injEq] at hJ
        rw [← hJ.2]; exact hI
      · cases s with
        | none => simp [hP, hE] at hJ
        | some b =>
          cases hS : h[b]? with
          | none => simp [hP, hE, hS] at hJ
          | some S0 =>
            cases hm : P0.priv with
            | none => simp [hP, hE, hS, hm] at hJ
            | some m =>
              have hE' : P0.Empty = false := by simpa using hE
              simp only [hP, hE', hS, hm, Bool.false_eq_true, if_false,
                Option.some.injEq, Prod.mk.injEq] at hJ
              rw [← hJ.2]
              intro P hPm
              rcases List.mem_or_eq_of_mem_set hPm with h1 | h1
              · exact hI P h1
              · subst h1
                have hP0 : P0 ∈ h := List.getElem?_mem hP
                have hm0 : DistinctKeys m := by
                  have h2 := hI P0 hP0
                  simpa [Params.entries, hm] using h2
                have := distinctKeys_foldl_joinStep S0.entries m hm0
                simpa [Params.entries] using this

/-- Helper: every map of a reachable heap has pairwise distinct keys. -/
theorem distinctKeys_of_Reachable (h : Heap K A) (hr : Reachable h) :
    ∀ P ∈ h, DistinctKeys P.entries := by
  induction hr with
  | init => intro P hP; simp at hP
  | newParams ps _ hN ih =>
    refine distinctKeys_Add _ _ _ _ ps hN ?_
    intro P hP
    rcases List.mem_append.mp hP with h1 | h1
    · exact ih P h1
    · simp only [List.mem_singleton] at h1
      subst h1
      simp [Params.entries, DistinctKeys]
  | add p ps _ hA ih => exact distinctKeys_Add _ _ p _ ps hA ih
  | join p s _ hJ ih => exact distinctKeys_Join _ _ p s _ hJ ih

end ParamsTheorems

/-! ## Theorems: sample conversion -/

theorem goInt_roundtrip (d : Int) (hlo : -32768 ≤ d) (hhi : d ≤ 32768) :
    goInt ((d : ℚ) / 0x8000 * 0x7fff) = d - Int.sign d := by
  have hlo' : (-32768 : ℚ) ≤ (d : ℚ) := by exact_mod_cast hlo
  have hhi' : (d : ℚ) ≤ 32768 := by exact_mod_cast hhi
  unfold goInt
  rcases lt_trichotomy d 0 with hd | hd | hd
  · have hd' : (d : ℚ) < 0 := by exact_mod_cast hd
    have hneg : ¬ (0 : ℚ) ≤ (d : ℚ) / 0x8000 * 0x7fff := by
      intro h0
      have : (d : ℚ) / 0x8000 * 0x7fff < 0 := by
        have : (d : ℚ) / 0x8000 * 0x7fff = (d : ℚ) * (0x7fff / 0x8000) := by ring
        rw [this]
        exact mul_neg_of_neg_of_pos hd' (by norm_num)
      linarith
    rw [if_neg hneg, Int.sign_eq_neg_one_of_neg hd, Int.ceil_eq_iff]
    push_cast
    constructor <;> linarith
  · subst hd
    simp
  · have hd' : (0 : ℚ) < (d : ℚ) := by exact_mod_cast hd
    have hpos : (0 : ℚ) ≤ (d : ℚ) / 0x8000 * 0x7fff := by positivity
    rw [if_pos hpos, Int.sign_eq_one_of_pos hd, Int.floor_eq_iff]
    push_cast
    constructor <;> linarith

theorem channelLoop_eq (data : List Int) (nc frames c : Nat) (hc : c < nc)
    (hlen : data.length = frames * nc) :
    ∀ (r k fuel : Nat), k + r = frames → r < fuel →
      channelLoop data nc (nc * frames) fuel (k * nc + c) =
        some ((List.range r).map
          (fun t => ((data.getD ((k + t) * nc + c) 0 : Int) : ℚ) / 0x8000)) := by
  intro r
  induction r with
  | zero =>
    intro k fuel hk hf
    obtain ⟨f, rfl⟩ : ∃ f, fuel = f + 1 := ⟨fuel - 1, by omega⟩
    have hk' : k = frames := by omega
    subst hk'
    have : ¬ k * nc + c < nc * k := by
      rw [Nat.mul_comm nc k]; omega
    simp [channelLoop, this]
  | succ r ih =>
    intro k fuel hk hf
    obtain ⟨f, rfl⟩ : ∃ f, fuel = f + 1 := ⟨fuel - 1, by omega⟩
    have hle : (k + 1) * nc ≤ frames * nc := Nat.mul_le_mul_right nc (by omega)
    have hj : k * nc + c < nc * frames := by
      rw [Nat.mul_comm nc frames]
      have : (k + 1) * nc = k * nc + nc := by ring
      omega
    have hjl : k * nc + c < data.length := by
      rw [hlen, ← Nat.mul_comm nc frames]; exact hj
    have hrec := ih (k + 1) f (by omega) (by omega)
    have hidx : (k + 1) * nc + c = k * nc + c + nc := by ring
    rw [hidx] at hrec
    have hget : data[k * nc + c]? = some (data.getD (k * nc + c) 0) := by
      rw [List.getElem?_eq_getElem hjl, List.getD_eq_getElem _ _ hjl]
    rw [channelLoop, if_pos hj, hget, hrec]
    simp only [List.range_succ_eq_map, List.map_cons, List.map_map, Nat.add_zero]
    congr 2
    apply List.map_congr_left
    intro t _
    simp only [Function.comp]
    congr 3
    rw [Nat.succ_eq_add_one]
    ring
theorem collectChannels_eq (f : Nat → Option (List ℚ)) (g : Nat → List ℚ) (is : List Nat)
    (hf : ∀ i ∈ is, f i = some (g i)) : collectChannels f is = some (is.map g) := by
  induction is with
  | nil => rfl
  | cons i rest ih =>
    have h1 := hf i (List.mem_cons_self _ _)
    have h2 := ih (fun j hj => hf j (List.mem_cons_of_mem _ hj))
    simp [collectChannels, h1, h2]

theorem writeFrame_spec (s : List (List ℚ)) (nc i : Nat) (x : Nat → ℚ) (js : List Nat) :
    ∀ (data : List Int),
      (∀ j ∈ js, j < nc ∧ s[j]?.bind (fun ch => ch[i]?) = some (x j)) →
      i * nc + nc ≤ data.length →
      ∃ data', writeFrame s nc i js data = some data' ∧ data'.length = data.length ∧
        ∀ idx, data'[idx]? =
          if idx / nc = i ∧ idx % nc ∈ js then some (goInt (x (idx % nc) * 0x7fff))
          else data[idx]? := by
  induction js with
  | nil =>
    intro data _ _
    exact ⟨data, rfl, rfl, fun idx => by simp⟩
  | cons j rest ih =>
    intro data hjs hlen
    obtain ⟨hj, hx⟩ := hjs j (List.mem_cons_self _ _)
    have hlt : i * nc + j < data.length := by omega
    obtain ⟨data', hw, hl, hget⟩ := ih (data.set (i * nc + j) (goInt (x j * 0x7fff)))
      (fun j' hj' => hjs j' (List.mem_cons_of_mem _ hj')) (by simpa using hlen)
    refine ⟨data', by simp [writeFrame, hx, hlt, hw], by simpa using hl, fun idx => ?_⟩
    rw [hget idx]
    have hnc : 0 < nc := by omega
    by_cases hidx : idx = i * nc + j
    · have hd : idx / nc = i := by
        rw [hidx, Nat.mul_comm i nc, Nat.mul_add_div hnc, Nat.div_eq_of_lt hj]; rfl
      have hm : idx % nc = j := by
        rw [hidx, Nat.mul_comm i nc, Nat.mul_add_mod, Nat.mod_eq_of_lt hj]
      have hpos : idx / nc = i ∧ idx % nc ∈ j :: rest := ⟨hd, by rw [hm]; exact List.mem_cons_self _ _⟩
      rw [if_pos hpos]
      by_cases hr : idx / nc = i ∧ idx % nc ∈ rest
      · rw [if_pos hr]
      · rw [if_neg hr, hm, hidx]
        simp [List.getElem?_set, hlt]
    · have hne : ¬ (idx / nc = i ∧ idx % nc = j) := by
        rintro ⟨h1, h2⟩
        apply hidx
        have := Nat.div_add_mod idx nc
        rw [h1, h2, Nat.mul_comm] at this
        exact this.symm
      have hne' : ¬ i * nc + j = idx := fun e => hidx e.symm
      by_cases hr : idx / nc = i ∧ idx % nc ∈ rest
      · have : idx / nc = i ∧ idx % nc ∈ j :: rest := ⟨hr.1, List.mem_cons_of_mem _ hr.2⟩
        rw [if_pos hr, if_pos this]
      · have : ¬ (idx / nc = i ∧ idx % nc ∈ j :: rest) := by
          rintro ⟨h1, h2⟩
          rcases List.mem_cons.mp h2 with h3 | h3
          · exact hne ⟨h1, h3⟩
          · exact hr ⟨h1, h3⟩
        rw [if_neg hr, if_neg this]
        simp [List.getElem?_set, hne']

theorem writeFrames_spec (s : List (List ℚ)) (nc : Nat) (hnc : 0 < nc) (hs : s.length = nc)
    (x : Nat → Nat → ℚ) (is : List Nat) :
    ∀ (data : List Int),
      (∀ i ∈ is, i * nc + nc ≤ data.length ∧
        ∀ j < nc, s[j]?.bind (fun ch => ch[i]?) = some (x i j)) →
      ∃ data', writeFrames s nc is data = some data' ∧ data'.length = data.length ∧
        ∀ idx, data'[idx]? =
          if idx / nc ∈ is then some (goInt (x (idx / nc) (idx % nc) * 0x7fff))
          else data[idx]? := by
  induction is with
  | nil =>
    intro data _
    exact ⟨data, rfl, rfl, fun idx => by simp⟩
  | cons i rest ih =>
    intro data his
    obtain ⟨hlen, hx⟩ := his i (List.mem_cons_self _ _)
    obtain ⟨d1, hw1, hl1, hg1⟩ := writeFrame_spec s nc i (x i) (List.range s.length) data
      (fun j hj => by
        have hj' : j < nc := by simpa [hs] using hj
        exact ⟨hj', hx j hj'⟩) hlen
    obtain ⟨d2, hw2, hl2, hg2⟩ := ih d1 (fun i' hi' => by
      obtain ⟨h1, h2⟩ := his i' (List.mem_cons_of_mem _ hi')
      exact ⟨by rw [hl1]; exact h1, h2⟩)
    refine ⟨d2, by simp [writeFrames, hw1, hw2], by rw [hl2, hl1], fun idx => ?_⟩
    rw [hg2 idx, hg1 idx]
    have hmod : idx % nc ∈ List.range s.length := by
      rw [hs]; exact List.mem_range.mpr (Nat.mod_lt _ hnc)
    by_cases hr : idx / nc ∈ rest
    · simp [hr]
    · by_cases hi : idx / nc = i
      · simp [hr, hi, hmod]
      · simp [hr, hi]
theorem deinterleaved_get (data : List Int) (nc frames j i : Nat) (hj : j < nc)
    (hi : i < frames) :
    (deinterleaved data nc frames)[j]?.bind (fun ch => ch[i]?) =
      some (((data.getD (i * nc + j) 0 : Int) : ℚ) / 0x8000) := by
  simp [deinterleaved, List.getElem?_map, List.getElem?_range, hj, hi]

theorem AsSamples_eq (fmt : AudioFormat) (data : List Int) (bits : Int) (nc frames : Nat)
    (hfmt : fmt.NumChannels = (nc : Int)) (hnc : 1 ≤ nc)
    (hlen : data.length = frames * nc) :
    AsSamples (.int (some ⟨some fmt, data, bits⟩)) = .ok (some (deinterleaved data nc frames)) := by
  have hneg : ¬ fmt.NumChannels < 0 := by rw [hfmt]; omega
  have hnf : NumFrames data nc = frames := by
    have : nc ≠ 0 := by omega
    simp [NumFrames, this, hlen, Nat.mul_div_cancel _ (by omega : 0 < nc)]
  have hcol := collectChannels_eq
    (fun i => channelLoop data nc (nc * frames) (nc * frames + 1) i)
    (fun c => (List.range frames).map
      (fun k => ((data.getD (k * nc + c) 0 : Int) : ℚ) / 0x8000))
    (List.range nc) (fun c hc => by
      have hc' : c < nc := List.mem_range.mp hc
      have hfuel : frames < nc * frames + 1 := by
        have : 1 * frames ≤ nc * frames := Nat.mul_le_mul_right frames hnc
        omega
      have h := channelLoop_eq data nc frames c hc' hlen frames 0 (nc * frames + 1)
        (by omega) hfuel
      simpa using h)
  simp only [AsSamples, hneg, if_false, hfmt, Int.toNat_ofNat, hnf, hcol]
  rfl

theorem AsBuffer_deinterleaved (data : List Int) (nc frames : Nat) (hnc : 1 ≤ nc)
    (hlen : data.length = frames * nc) (target : IntBuffer) :
    AsBuffer (.int (some target)) (some (deinterleaved data nc frames)) =
      .ok (.int (some { target with
        Data := data.map (fun d : Int => goInt ((d : ℚ) / 0x8000 * 0x7fff)) })) := by
  have hslen : (deinterleaved data nc frames).length = nc := by simp [deinterleaved]
  obtain ⟨s0, rest, hs⟩ : ∃ s0 rest, deinterleaved data nc frames = s0 :: rest := by
    cases hd : deinterleaved data nc frames with
    | nil => rw [hd] at hslen; simp at hslen; omega
    | cons a b => exact ⟨a, b, rfl⟩
  have hs0 : s0.length = frames := by
    have h0 : (deinterleaved data nc frames)[0]? = some s0 := by rw [hs]; simp
    simp only [deinterleaved, List.getElem?_map, List.getElem?_range (by omega : 0 < nc),
      Option.map_some', Option.some.injEq] at h0
    rw [← h0]; simp
  have hslen' : (s0 :: rest).length = nc := by rw [← hs]; exact hslen
  obtain ⟨out, hw, hl, hg⟩ := writeFrames_spec (s0 :: rest) nc (by omega) hslen'
    (fun i j => ((data.getD (i * nc + j) 0 : Int) : ℚ) / 0x8000) (List.range frames)
    (List.replicate (nc * frames) 0) (fun i hi => by
      have hi' : i < frames := List.mem_range.mp hi
      refine ⟨?_, fun j hj => ?_⟩
      · have : (i + 1) * nc ≤ frames * nc := Nat.mul_le_mul_right nc (by omega)
        have h2 : (i + 1) * nc = i * nc + nc := by ring
        simp only [List.length_replicate]
        rw [Nat.mul_comm nc frames]; omega
      · rw [← hs]; exact deinterleaved_get data nc frames j i hj hi')
  have hout : out = data.map (fun d : Int => goInt ((d : ℚ) / 0x8000 * 0x7fff)) := by
    apply List.ext_getElem?
    intro idx
    rw [hg idx]
    by_cases hidx : idx < frames * nc
    · have hdiv : idx / nc < frames := (Nat.div_lt_iff_lt_mul (by omega)).mpr hidx
      have hdm : idx / nc * nc + idx % nc = idx := by
        rw [Nat.mul_comm]; exact Nat.div_add_mod idx nc
      have hil : idx < data.length := by rw [hlen]; exact hidx
      rw [if_pos (List.mem_range.mpr hdiv), hdm, List.getElem?_map,
        List.getElem?_eq_getElem hil, List.getD_eq_getElem _ _ hil]
      rfl
    · have hdiv : ¬ idx / nc < frames := by
        rw [Nat.div_lt_iff_lt_mul (by omega)]; exact hidx
      have hil : data.length ≤ idx := by rw [hlen]; omega
      rw [if_neg (by simpa using hdiv), List.getElem?_map,
        List.getElem?_eq_none hil]
      simp only [Option.map_none']
      apply List.getElem?_eq_none
      simp only [List.length_replicate]
      rw [Nat.mul_comm nc frames]; omega
  rw [hs]
  simp only [AsBuffer, hslen', hs0, hw, hout]
/-- C10: for an IntBuffer with a defined format of `nc ≥ 1` channels whose Data
holds `frames` interleaved frames of values in [-32768, 32768], `AsSamples`
succeeds with `nc` channels of `frames` samples, channel `c` frame `k` being
`Data[k*nc+c] / 32768`; `AsBuffer` on that result writes a Data of the same
length and interleaving whose entry for each original `d` is
`trunc(d*32767/32768) = d - sign d`: it differs from `d` by at most 1 and equals
`d` only for `d = 0`. -/
theorem AsSamples_AsBuffer_roundtrip (fmt : AudioFormat) (data : List Int) (bits : Int)
    (nc frames : Nat) (hfmt : fmt.NumChannels = (nc : Int)) (hnc : 1 ≤ nc)
    (hlen : data.length = frames * nc)
    (hrange : ∀ d ∈ data, -32768 ≤ d ∧ d ≤ 32768) (target : IntBuffer) :
    ∃ s, AsSamples (.int (some ⟨some fmt, data, bits⟩)) = .ok (some s) ∧
      s.length = nc ∧
      (∀ c k, c < nc → k < frames → ∃ (ch : List ℚ) (d : Int), s[c]? = some ch ∧ ch.length = frames ∧
        data[k * nc + c]? = some d ∧ ch[k]? = some ((d : ℚ) / 32768)) ∧
      ∃ out, AsBuffer (.int (some target)) (some s) =
          .ok (.int (some { target with Data := out })) ∧
        out.length = data.length ∧
        ∀ (i : Nat) (d : Int), data[i]? = some d → ∃ o : Int, out[i]? = some o ∧
          o = goInt ((d : ℚ) * 32767 / 32768) ∧ o = d - Int.sign d ∧
          |o - d| ≤ 1 ∧ (o = d ↔ d = 0) := by
  refine ⟨deinterleaved data nc frames, AsSamples_eq fmt data bits nc frames hfmt hnc hlen,
    by simp [deinterleaved], ?_, ?_⟩
  · intro c k hc hk
    have hle : (k + 1) * nc ≤ frames * nc := Nat.mul_le_mul_right nc (by omega)
    have h2 : (k + 1) * nc = k * nc + nc := by ring
    have hj : k * nc + c < data.length := by rw [hlen]; omega
    refine ⟨(List.range frames).map
      (fun k => ((data.getD (k * nc + c) 0 : Int) : ℚ) / 0x8000), data[k * nc + c], ?_, ?_, ?_, ?_⟩
    · simp [deinterleaved, List.getElem?_map, List.getElem?_range, hc]
    · simp
    · exact List.getElem?_eq_getElem hj
    · simp [List.getElem?_map, List.getElem?_range, hk, List.getElem?_eq_getElem hj]
  · refine ⟨data.map (fun d : Int => goInt ((d : ℚ) / 0x8000 * 0x7fff)),
      AsBuffer_deinterleaved data nc frames hnc hlen target, by simp, ?_⟩
    intro i d hd
    have hmem : d ∈ data := List.getElem?_mem hd
    obtain ⟨hlo, hhi⟩ := hrange d hmem
    have hval := goInt_roundtrip d hlo hhi
    have hform : goInt ((d : ℚ) / 0x8000 * 0x7fff) = goInt ((d : ℚ) * 32767 / 32768) := by
      congr 1; ring
    refine ⟨goInt ((d : ℚ) / 0x8000 * 0x7fff), by simp [List.getElem?_map, hd], hform, hval,
      ?_, ?_⟩
    · rw [hval]
      rcases lt_trichotomy d 0 with h0 | h0 | h0
      · rw [Int.sign_eq_neg_one_of_neg h0]; simp
      · subst h0; simp
      · rw [Int.sign_eq_one_of_pos h0]; simp
    · rw [hval]
      constructor
      · intro h
        have : Int.sign d = 0 := by omega
        exact Int.sign_eq_zero_iff_zero.mp this
      · intro h; subst h; simp

/-- Witness of C10: three stereo frames with the extreme values. -/
theorem AsSamples_AsBuffer_roundtrip_witness :
    ∃ s, AsSamples (.int (some ⟨some ⟨2, 44100⟩, [0, 1, -1, 32768, -32768, 5], 16⟩)) =
        .ok (some s) ∧
      s.length = 2 ∧
      (∀ c k, c < 2 → k < 3 → ∃ (ch : List ℚ) (d : Int), s[c]? = some ch ∧ ch.length = 3 ∧
        ([0, 1, -1, 32768, -32768, 5] : List Int)[k * 2 + c]? = some d ∧
        ch[k]? = some ((d : ℚ) / 32768)) ∧
      ∃ out, AsBuffer (.int (some ⟨none, [], 16⟩)) (some s) =
          .ok (.int (some { (⟨none, [], 16⟩ : IntBuffer) with Data := out })) ∧
        out.length = ([0, 1, -1, 32768, -32768, 5] : List Int).length ∧
        ∀ (i : Nat) (d : Int), ([0, 1, -1, 32768, -32768, 5] : List Int)[i]? = some d →
          ∃ o : Int, out[i]? = some o ∧
            o = goInt ((d : ℚ) * 32767 / 32768) ∧ o = d - Int.sign d ∧
            |o - d| ≤ 1 ∧ (o = d ↔ d = 0) :=
  AsSamples_AsBuffer_roundtrip ⟨2, 44100⟩ [0, 1, -1, 32768, -32768, 5] 16 2 3 rfl
    (by decide) rfl (by decide) ⟨none, [], 16⟩

/-! ## Theorems: Track compositor -/

section TrackLemmas

variable {α : Type} [Zero α]

omit [Zero α] in
theorem foldl_set_length (g : Nat → α) (cursor : Nat) (fs : List Nat) :
    ∀ buf : List α, (fs.foldl (fun b f => b.set (f - cursor) (g f)) buf).length = buf.length := by
  induction fs with
  | nil => intro buf; rfl
  | cons f rest ih => intro buf; rw [List.foldl_cons, ih]; simp

omit [Zero α] in
theorem foldl_set_getElem? (g : Nat → α) (cursor : Nat) (fs : List Nat)
    (hfs : ∀ f ∈ fs, cursor ≤ f) (i : Nat) :
    ∀ buf : List α, (fs.foldl (fun b f => b.set (f - cursor) (g f)) buf)[i]? =
      if cursor + i ∈ fs ∧ i < buf.length then some (g (cursor + i)) else buf[i]? := by
  induction fs with
  | nil => intro buf; simp
  | cons f rest ih =>
    intro buf
    have hf : cursor ≤ f := hfs f (List.mem_cons_self _ _)
    rw [List.foldl_cons, ih (fun f' hf' => hfs f' (List.mem_cons_of_mem _ hf'))]
    simp only [List.length_set, List.mem_cons]
    by_cases hr : cursor + i ∈ rest ∧ i < buf.length
    · rw [if_pos hr, if_pos ⟨Or.inr hr.1, hr.2⟩]
    · rw [if_neg hr]
      by_cases hfi : f - cursor = i
      · have hfe : cursor + i = f := by omega
        by_cases hlt : i < buf.length
        · rw [if_pos ⟨Or.inl hfe, hlt⟩, hfi, hfe]
          simp [List.getElem?_set, hlt]
        · have h1 : ¬ ((cursor + i = f ∨ cursor + i ∈ rest) ∧ i < buf.length) :=
            fun h => hlt h.2
          rw [if_neg h1]
          simp [List.getElem?_set, hfi, hlt]
          omega
      · have hfe : ¬ cursor + i = f := by omega
        have h1 : ¬ ((cursor + i = f ∨ cursor + i ∈ rest) ∧ i < buf.length) := by
          rintro ⟨h2 | h2, h3⟩
          · exact hfe h2
          · exact hr ⟨h2, h3⟩
        rw [if_neg h1]
        simp [List.getElem?_set, hfi]

theorem copyClip_length (cursor n ch : Nat) (buf : List α) (e : Nat × Clip α) :
    (copyClip cursor n ch buf e).length = buf.length := by
  unfold copyClip
  simp only
  split
  · exact foldl_set_length _ _ _ _
  · rfl

theorem copyClip_getElem? (cursor n ch : Nat) (buf : List α) (e : Nat × Clip α)
    (hbuf : buf.length = n) (i : Nat) (hi : i < n) :
    (copyClip cursor n ch buf e)[i]? =
      if e.1 ≤ cursor + i ∧ cursor + i < e.1 + e.2.length then
        some (e.2.sample ch (cursor + i - e.1))
      else buf[i]? := by
  unfold copyClip
  simp only
  split
  · rename_i hlt
    rw [foldl_set_getElem? (fun f => e.2.sample ch (f - e.1)) cursor _
      (fun f hf => by
        have := (List.mem_range'_1.mp hf).1
        exact le_trans (le_max_left _ _) this) i buf]
    have hiff : (cursor + i ∈ List.range' (max cursor e.1)
          (min (cursor + n) (e.1 + e.2.length) - max cursor e.1) ∧ i < buf.length) ↔
        (e.1 ≤ cursor + i ∧ cursor + i < e.1 + e.2.length) := by
      rw [List.mem_range'_1, hbuf]
      constructor
      · rintro ⟨⟨h1, h2⟩, _⟩
        have h3 : e.1 ≤ max cursor e.1 := le_max_right _ _
        have h4 : min (cursor + n) (e.1 + e.2.length) ≤ e.1 + e.2.length := min_le_right _ _
        omega
      · rintro ⟨h1, h2⟩
        have h3 : max cursor e.1 ≤ cursor + i := max_le (by omega) h1
        have h4 : cursor + i < min (cursor + n) (e.1 + e.2.length) := lt_min (by omega) h2
        omega
    by_cases hc : e.1 ≤ cursor + i ∧ cursor + i < e.1 + e.2.length
    · rw [if_pos hc, if_pos (hiff.mpr hc)]
    · rw [if_neg hc, if_neg (fun h => hc (hiff.mp h))]
  · rename_i hlt
    have hc : ¬ (e.1 ≤ cursor + i ∧ cursor + i < e.1 + e.2.length) := by
      rintro ⟨h1, h2⟩
      apply hlt
      have h3 : max cursor e.1 ≤ cursor + i := max_le (by omega) h1
      have h4 : cursor + i < min (cursor + n) (e.1 + e.2.length) := lt_min (by omega) h2
      omega
    rw [if_neg hc]

theorem foldl_copyClip_length (cursor n ch : Nat) (entries : List (Nat × Clip α)) :
    ∀ buf : List α, (entries.foldl (copyClip cursor n ch) buf).length = buf.length := by
  induction entries with
  | nil => intro buf; rfl
  | cons e rest ih => intro buf; rw [List.foldl_cons, ih, copyClip_length]

theorem foldl_copyClip_getElem? (cursor n ch : Nat) (entries : List (Nat × Clip α))
    (i : Nat) (hi : i < n) :
    ∀ buf : List α, buf.length = n →
      (entries.foldl (copyClip cursor n ch) buf)[i]? =
        match entries.reverse.find?
            (fun e => decide (e.1 ≤ cursor + i ∧ cursor + i < e.1 + e.2.length)) with
        | some e => some (e.2.sample ch (cursor + i - e.1))
        | none => buf[i]? := by
  induction entries with
  | nil => intro buf _; simp
  | cons e rest ih =>
    intro buf hbuf
    rw [List.foldl_cons, ih _ (by rw [copyClip_length, hbuf]), List.reverse_cons,
      List.find?_append]
    cases hfind : rest.reverse.find?
        (fun e => decide (e.1 ≤ cursor + i ∧ cursor + i < e.1 + e.2.length)) with
    | some e' => simp
    | none =>
      rw [copyClip_getElem? cursor n ch buf e hbuf i hi]
      by_cases hc : e.1 ≤ cursor + i ∧ cursor + i < e.1 + e.2.length
      · simp [List.find?, hc]
      · simp [List.find?, hc]

theorem renderChannel_eq (cursor n : Nat) (entries : List (Nat × Clip α)) (ch : Nat) :
    renderChannel cursor n entries ch =
      (List.range' cursor n).map (composed entries ch) := by
  apply List.ext_getElem?
  intro i
  by_cases hi : i < n
  · rw [renderChannel, foldl_copyClip_getElem? cursor n ch entries i hi _ (by simp)]
    simp only [List.getElem?_map, List.getElem?_range' _ _ hi, Option.map_some', composed,
      Nat.one_mul]
    cases entries.reverse.find?
        (fun e => decide (e.1 ≤ cursor + i ∧ cursor + i < e.1 + e.2.length)) with
    | some e' => rfl
    | none => simp [hi]
  · rw [List.getElem?_eq_none (by rw [renderChannel, foldl_copyClip_length]; simpa using hi),
      List.getElem?_eq_none (by simpa using hi)]

omit [Zero α] in
theorem sinkChannel_cons (chunk : List (List α)) (chunks : List (List (List α)))
    (ch : Nat) (samples : List α) (hch : chunk[ch]? = some samples) :
    sinkChannel (chunk :: chunks) ch = samples ++ sinkChannel chunks ch := by
  simp [sinkChannel, hch]

theorem pull_chunk (numCh n c : Nat) (entries : List (Nat × Clip α)) (st : TrackState)
    (hst : st ≠ .Exhausted) :
    ∃ chunk, (Track.mk numCh n c entries st).pull =
        some (chunk, ⟨numCh, n, c + n, entries,
          if c + n > maxExtent entries then .Exhausted else .Streaming⟩) ∧
      ∀ ch, ch < numCh →
        chunk[ch]? = some ((List.range' c n).map (composed entries ch)) := by
  refine ⟨(List.range numCh).map (renderChannel c n entries), by simp [Track.pull, hst], ?_⟩
  intro ch hch
  simp [List.getElem?_map, List.getElem?_range, hch, renderChannel_eq]

theorem drain_exhausted (numCh n c fuel : Nat) (entries : List (Nat × Clip α)) :
    (Track.mk numCh n c entries .Exhausted).drain (fuel + 1) = some [] := by
  simp [Track.drain, Track.pull]

theorem drain_spec (numCh n : Nat) (hn : 0 < n) (entries : List (Nat × Clip α)) :
    ∀ (fuel c : Nat) (st : TrackState), st ≠ .Exhausted →
      maxExtent entries < c + (fuel + 1) * n →
      ∃ chunks, (Track.mk numCh n c entries st).drain (fuel + 2) = some chunks ∧
        chunks.length = (maxExtent entries - c) / n + 1 ∧
        ∀ ch, ch < numCh → sinkChannel chunks ch =
          (List.range' c (chunks.length * n)).map (composed entries ch) := by
  intro fuel
  induction fuel with
  | zero =>
    intro c st hst hE
    obtain ⟨chunk, hpull, hchunk⟩ := pull_chunk numCh n c entries st hst
    have hex : c + n > maxExtent entries := by omega
    refine ⟨[chunk], ?_, ?_, ?_⟩
    · show Track.drain (0 + 1 + 1) _ = _
      rw [Track.drain, hpull]
      simp only [hex, if_true]
      rw [drain_exhausted]
    · have : (maxExtent entries - c) / n = 0 := Nat.div_eq_of_lt (by omega)
      simp [this]
    · intro ch hch
      rw [sinkChannel_cons chunk [] ch _ (hchunk ch hch)]
      simp [sinkChannel]
  | succ fuel ih =>
    intro c st hst hE
    obtain ⟨chunk, hpull, hchunk⟩ := pull_chunk numCh n c entries st hst
    by_cases hex : c + n > maxExtent entries
    · refine ⟨[chunk], ?_, ?_, ?_⟩
      · rw [Track.drain, hpull]
        simp only [hex, if_true]
        rw [drain_exhausted]
      · have : (maxExtent entries - c) / n = 0 := Nat.div_eq_of_lt (by omega)
        simp [this]
      · intro ch hch
        rw [sinkChannel_cons chunk [] ch _ (hchunk ch hch)]
        simp [sinkChannel]
    · have hE' : maxExtent entries < c + n + (fuel + 1) * n := by
        have : (fuel + 1 + 1) * n = (fuel + 1) * n + n := by ring
        omega
      obtain ⟨chunks, hdrain, hlen, hsink⟩ := ih (c + n) .Streaming (by decide) hE'
      refine ⟨chunk :: chunks, ?_, ?_, ?_⟩
      · rw [Track.drain, hpull]
        simp only [hex, if_false]
        rw [hdrain]
      · have hsub : maxExtent entries - c = (maxExtent entries - (c + n)) + n := by omega
        rw [List.length_cons, hlen, hsub, Nat.add_div_right _ hn]
      · intro ch hch
        rw [sinkChannel_cons chunk chunks ch _ (hchunk ch hch), hsink ch hch,
          ← List.map_append]
        congr 1
        rw [List.length_cons, Nat.add_mul, Nat.one_mul, Nat.add_comm (chunks.length * n) n]
        exact (List.range'_append_1 c n (chunks.length * n)).trans
          (by rw [Nat.add_comm])

theorem drain_mono (fuel : Nat) :
    ∀ (t : Track α) (chunks : List (List (List α))),
      t.drain fuel = some chunks → t.drain (fuel + 1) = some chunks := by
  induction fuel with
  | zero => intro t chunks h; simp [Track.drain] at h
  | succ fuel ih =>
    intro t chunks h
    rw [Track.drain] at h
    rw [Track.drain]
    cases hp : t.pull with
    | none => rw [hp] at h; exact h
    | some r =>
      obtain ⟨chunk, t'⟩ := r
      rw [hp] at h
      simp only at h ⊢
      cases hd : Track.drain fuel t' with
      | none => rw [hd] at h; simp at h
      | some cs =>
        rw [hd] at h
        rw [ih t' cs hd]
        exact h

theorem drain_mono_le (fuel fuel' : Nat) (hle : fuel ≤ fuel') (t : Track α)
    (chunks : List (List (List α))) (h : t.drain fuel = some chunks) :
    t.drain fuel' = some chunks := by
  induction fuel' with
  | zero =>
    have : fuel = 0 := by omega
    subst this; exact h
  | succ k ih =>
    by_cases hk : fuel ≤ k
    · exact drain_mono k t chunks (ih hk)
    · have : fuel = k + 1 := by omega
      subst this; exact h

omit [Zero α] in
theorem addClips_fields (calls : List (Nat × Clip α)) :
    ∀ t : Track α, (t.addClips calls).numChannels = t.numChannels ∧
      (t.addClips calls).chunkSize = t.chunkSize ∧
      (t.addClips calls).cursor = t.cursor ∧ (t.addClips calls).state = t.state := by
  induction calls with
  | nil => intro t; exact ⟨rfl, rfl, rfl, rfl⟩
  | cons call rest ih =>
    intro t
    simp only [Track.addClips, List.foldl_cons]
    by_cases hc : call.2.parent.length = t.numChannels
    · simp only [Track.AddClip, hc, if_true]
      exact ih _
    · simp only [Track.AddClip, hc, if_false]
      exact ih _

omit [Zero α] in
theorem addClips_entries (calls : List (Nat × Clip α)) :
    ∀ t : Track α, (t.addClips calls).entries =
      t.entries ++ acceptedCalls t.numChannels calls := by
  induction calls with
  | nil => intro t; simp [Track.addClips, acceptedCalls]
  | cons call rest ih =>
    intro t
    have hfold : t.addClips (call :: rest) =
        Track.addClips (match t.AddClip call.1 call.2 with
          | some t' => t'
          | none => t) rest := rfl
    rw [hfold]
    by_cases hc : call.2.parent.length = t.numChannels
    · simp only [Track.AddClip, hc, if_true]
      rw [ih]
      simp [acceptedCalls, hc]
    · simp only [Track.AddClip, hc, if_false]
      rw [ih]
      simp [acceptedCalls, hc]

theorem composed_of_last (entries pre post : List (Nat × Clip α)) (e : Nat × Clip α)
    (ch f : Nat) (hsplit : entries = pre ++ e :: post)
    (he : e.1 ≤ f ∧ f < e.1 + e.2.length)
    (hpost : ∀ e' ∈ post, ¬ (e'.1 ≤ f ∧ f < e'.1 + e'.2.length)) :
    composed entries ch f = e.2.sample ch (f - e.1) := by
  subst hsplit
  have hnone : post.reverse.find? (fun e => decide (e.1 ≤ f ∧ f < e.1 + e.2.length)) = none := by
    rw [List.find?_eq_none]
    intro x hx
    have := hpost x (List.mem_reverse.mp hx)
    simpa using this
  simp only [composed, List.reverse_append, List.reverse_cons, List.append_assoc,
    List.find?_append, hnone, Option.or]
  simp [List.find?, he]

theorem composed_of_none (entries : List (Nat × Clip α)) (ch f : Nat)
    (hnone : ∀ e ∈ entries, ¬ (e.1 ≤ f ∧ f < e.1 + e.2.length)) :
    composed entries ch f = 0 := by
  have : entries.reverse.find? (fun e => decide (e.1 ≤ f ∧ f < e.1 + e.2.length)) = none := by
    rw [List.find?_eq_none]
    intro x hx
    have := hnone x (List.mem_reverse.mp hx)
    simpa using this
  unfold composed
  rw [this]

omit [Zero α] in
theorem le_maxExtent_foldl (entries : List (Nat × Clip α)) :
    ∀ m : Nat, m ≤ entries.foldl (fun m e => max m (e.1 + e.2.length)) m ∧
      ∀ e ∈ entries, e.1 + e.2.length ≤ entries.foldl (fun m e => max m (e.1 + e.2.length)) m := by
  induction entries with
  | nil => intro m; exact ⟨le_refl _, fun e he => by simp at he⟩
  | cons e0 rest ih =>
    intro m
    obtain ⟨h1, h2⟩ := ih (max m (e0.1 + e0.2.length))
    refine ⟨le_trans (le_max_left _ _) h1, fun e he => ?_⟩
    rcases List.mem_cons.mp he with h3 | h3
    · subst h3; exact le_trans (le_max_right _ _) h1
    · exact h2 e h3

omit [Zero α] in
theorem le_maxExtent (entries : List (Nat × Clip α)) (e : Nat × Clip α) (he : e ∈ entries) :
    e.1 + e.2.length ≤ maxExtent entries :=
  (le_maxExtent_foldl entries 0).2 e he

/-- In the model of §4.3 a Track started at cursor 0 emits
`maxExtent / chunkSize + 1` chunks of `chunkSize` frames per channel. -/
theorem Track_drain_from_start (numCh n : Nat) (hn : 0 < n) (entries : List (Nat × Clip α)) :
    ∃ chunks, (∀ fuel, maxExtent entries + 2 ≤ fuel →
        (Track.mk numCh n 0 entries .Idle).drain fuel = some chunks) ∧
      chunks.length = maxExtent entries / n + 1 ∧
      ∀ ch, ch < numCh → sinkChannel chunks ch =
        (List.range (chunks.length * n)).map (composed entries ch) := by
  have hE : maxExtent entries < 0 + (maxExtent entries + 1) * n := by
    have : (maxExtent entries + 1) * 1 ≤ (maxExtent entries + 1) * n :=
      Nat.mul_le_mul_left _ hn
    omega
  obtain ⟨chunks, hdrain, hlen, hsink⟩ :=
    drain_spec numCh n hn entries (maxExtent entries) 0 .Idle (by decide) hE
  refine ⟨chunks, fun fuel hf => drain_mono_le _ fuel hf _ chunks hdrain, by simpa using hlen,
    fun ch hch => ?_⟩
  rw [hsink ch hch, List.range_eq_range']

end TrackLemmas

section TrackTheorems

variable {α : Type} [Zero α]

/-- C5: for a Track of a fixed channel count, every sequence of
`AddClip(position, clip)` calls and every chunk size `n > 0`: the entries of the
Track are the successful calls in call order, the run ends (with any sufficient
number of pulls), and the concatenation of the emitted chunks covers every frame
of every appended clip and has, at every frame `f` of every channel, the sample
of the most recently appended clip whose interval
`[position, position + clipLength)` contains `f`, at clip offset `f - position`
(whatever clips were appended before it, wherever they lie), and 0 when no
appended clip contains `f`. -/
theorem Track_last_appended_wins (numChannels n : Nat) (hn : 0 < n)
    (calls : List (Nat × Clip α)) :
    ((Track.New n numChannels).addClips calls).entries = acceptedCalls numChannels calls ∧
    ∃ chunks,
      (∀ fuel, maxExtent (acceptedCalls numChannels calls) + 2 ≤ fuel →
        ((Track.New n numChannels).addClips calls).drain fuel = some chunks) ∧
      ∀ ch, ch < numChannels →
        (∀ e ∈ acceptedCalls numChannels calls,
          e.1 + e.2.length ≤ (sinkChannel chunks ch).length) ∧
        ∀ f, f < (sinkChannel chunks ch).length →
          (sinkChannel chunks ch)[f]? =
            some (composed (acceptedCalls numChannels calls) ch f) ∧
          (∀ pre e post, acceptedCalls numChannels calls = pre ++ e :: post →
            (e.1 ≤ f ∧ f < e.1 + e.2.length) →
            (∀ e' ∈ post, ¬ (e'.1 ≤ f ∧ f < e'.1 + e'.2.length)) →
            (sinkChannel chunks ch)[f]? = some (e.2.sample ch (f - e.1))) ∧
          ((∀ e ∈ acceptedCalls numChannels calls, ¬ (e.1 ≤ f ∧ f < e.1 + e.2.length)) →
            (sinkChannel chunks ch)[f]? = some 0) := by
  have hent : ((Track.New n numChannels).addClips calls).entries =
      acceptedCalls numChannels calls := by
    have := addClips_entries calls (Track.New n numChannels : Track α)
    simpa [Track.New] using this
  refine ⟨hent, ?_⟩
  obtain ⟨h1, h2, h3, h4⟩ := addClips_fields calls (Track.New n numChannels : Track α)
  have hform : (Track.New n numChannels).addClips calls =
      ⟨numChannels, n, 0, acceptedCalls numChannels calls, .Idle⟩ := by
    generalize (Track.New n numChannels).addClips calls = t at hent h1 h2 h3 h4
    obtain ⟨a, b, c, d, e⟩ := t
    simp only [Track.New] at h1 h2 h3 h4 hent
    subst h1; subst h2; subst h3; subst h4; subst hent
    rfl
  obtain ⟨chunks, hdrain, hlen, hsink⟩ :=
    Track_drain_from_start numChannels n hn (acceptedCalls numChannels calls)
  refine ⟨chunks, fun fuel hf => by rw [hform]; exact hdrain fuel hf, fun ch hch => ?_⟩
  have hsl : (sinkChannel chunks ch).length = chunks.length * n := by
    rw [hsink ch hch]; simp
  have hcover : maxExtent (acceptedCalls numChannels calls) <
      (sinkChannel chunks ch).length := by
    rw [hsl, hlen]
    have := Nat.lt_div_mul_add hn (a := maxExtent (acceptedCalls numChannels calls))
    rw [Nat.add_mul, Nat.one_mul]
    exact this
  refine ⟨fun e he => le_trans (le_maxExtent _ e he) (le_of_lt hcover), fun f hf => ?_⟩
  have hget : (sinkChannel chunks ch)[f]? =
      some (composed (acceptedCalls numChannels calls) ch f) := by
    rw [hsink ch hch, List.getElem?_map, List.getElem?_range (by rw [← hsl]; exact hf)]
    rfl
  refine ⟨hget, fun pre e post hsplit he hpost => ?_, fun hnone => ?_⟩
  · rw [hget, composed_of_last _ pre post e ch f hsplit he hpost]
  · rw [hget, composed_of_none _ ch f hnone]

/-- Witness of C5: the case "Overlap previous" of the repository's
`overlapTests` (three frames of 1 placed at frame 3, then two frames of 2 placed
at frame 2, chunk size 2), preceded by a two-channel clip that `AddClip` refuses:
frame 3, covered by both clips, holds the 2 of the clip appended later; frame 4
holds the 1 of the earlier clip; frame 0 is silence. -/
theorem Track_last_appended_wins_witness :
    ∃ chunks,
      ((Track.New 2 1 : Track Int).addClips
        [(0, ⟨[[7, 7], [7, 7]], 0, 2⟩),
         (3, ⟨[[1, 1, 1, 1, 1, 1, 1, 1, 1, 1]], 3, 3⟩),
         (2, ⟨[[2, 2, 2, 2, 2, 2, 2, 2, 2, 2]], 5, 2⟩)]).drain 8 = some chunks ∧
      (sinkChannel chunks 0)[0]? = some 0 ∧
      (sinkChannel chunks 0)[2]? = some 2 ∧
      (sinkChannel chunks 0)[3]? = some 2 ∧
      (sinkChannel chunks 0)[4]? = some 1 ∧
      (sinkChannel chunks 0)[5]? = some 1 := by
  obtain ⟨_, chunks, h1, h2⟩ := Track_last_appended_wins 1 2 (by decide)
    [(0, (⟨[[7, 7], [7, 7]], 0, 2⟩ : Clip Int)),
     (3, ⟨[[1, 1, 1, 1, 1, 1, 1, 1, 1, 1]], 3, 3⟩),
     (2, ⟨[[2, 2, 2, 2, 2, 2, 2, 2, 2, 2]], 5, 2⟩)]
  obtain ⟨hcov, hf⟩ := h2 0 (by decide)
  have hlen : 6 ≤ (sinkChannel chunks 0).length :=
    hcov (3, ⟨[[1, 1, 1, 1, 1, 1, 1, 1, 1, 1]], 3, 3⟩) (by decide)
  refine ⟨chunks, h1 8 (by decide), ?_, ?_, ?_, ?_, ?_⟩
  · exact (hf 0 (by omega)).2.2 (by decide)
  · exact (hf 2 (by omega)).2.1 [(3, ⟨[[1, 1, 1, 1, 1, 1, 1, 1, 1, 1]], 3, 3⟩)]
      (2, ⟨[[2, 2, 2, 2, 2, 2, 2, 2, 2, 2]], 5, 2⟩) [] (by decide) (by decide) (by decide)
  · exact (hf 3 (by omega)).2.1 [(3, ⟨[[1, 1, 1, 1, 1, 1, 1, 1, 1, 1]], 3, 3⟩)]
      (2, ⟨[[2, 2, 2, 2, 2, 2, 2, 2, 2, 2]], 5, 2⟩) [] (by decide) (by decide) (by decide)
  · exact (hf 4 (by omega)).2.1 []
      (3, ⟨[[1, 1, 1, 1, 1, 1, 1, 1, 1, 1]], 3, 3⟩)
      [(2, ⟨[[2, 2, 2, 2, 2, 2, 2, 2, 2, 2]], 5, 2⟩)] (by decide) (by decide) (by decide)
  · exact (hf 5 (by omega)).2.1 []
      (3, ⟨[[1, 1, 1, 1, 1, 1, 1, 1, 1, 1]], 3, 3⟩)
      [(2, ⟨[[2, 2, 2, 2, 2, 2, 2, 2, 2, 2]], 5, 2⟩)] (by decide) (by decide) (by decide)

/-- The render algorithm of §4.3 on the case "Sequence shifted left" of
`overlapTests` (a clip of length 1 at frame 2, a clip of length 3 at frame 3,
chunk size 2, maximum extent 6): with the exhaustion rule of step 4 (the new
cursor exceeds the maximum extent) four chunks are emitted, 8 frames, the last
chunk all silence; the test expects the 6 frames `0 0 1 2 2 2`. -/
theorem Track_shifted_left_emits_eight_frames :
    maxExtent ((Track.New 2 1 : Track Int).addClips
        [(2, ⟨[[1, 1, 1, 1, 1, 1, 1, 1, 1, 1]], 3, 1⟩),
         (3, ⟨[[2, 2, 2, 2, 2, 2, 2, 2, 2, 2]], 5, 3⟩)]).entries = 6 ∧
      ((Track.New 2 1 : Track Int).addClips
        [(2, ⟨[[1, 1, 1, 1, 1, 1, 1, 1, 1, 1]], 3, 1⟩),
         (3, ⟨[[2, 2, 2, 2, 2, 2, 2, 2, 2, 2]], 5, 3⟩)]).drain 5 =
        some [[[0, 0]], [[1, 2]], [[2, 2]], [[0, 0]]] ∧
      (((Track.New 2 1 : Track Int).addClips
        [(2, ⟨[[1, 1, 1, 1, 1, 1, 1, 1, 1, 1]], 3, 1⟩),
         (3, ⟨[[2, 2, 2, 2, 2, 2, 2, 2, 2, 2]], 5, 3⟩)]).drain 5).map
          (fun chunks => sinkChannel chunks 0) = some [0, 0, 1, 2, 2, 2, 0, 0] := by
  refine ⟨?_, ?_, ?_⟩
  · decide
  · decide
  · decide

/-- The render algorithm of §4.3 on the two placements of the scenario
"Sequence": with the second clip at frame 4, as `overlapTests` places it, the
output is `0 0 0 1 2 2 2 0`; with the second clip at frame 5, as §8 of the
specification words the scenario, frame 4 is silence and the output has 10
frames. -/
theorem Track_sequence_placements :
    (((Track.New 2 1 : Track Int).addClips
        [(3, ⟨[[1, 1, 1, 1, 1, 1, 1, 1, 1, 1]], 3, 1⟩),
         (4, ⟨[[2, 2, 2, 2, 2, 2, 2, 2, 2, 2]], 5, 3⟩)]).drain 5).map
          (fun chunks => sinkChannel chunks 0) = some [0, 0, 0, 1, 2, 2, 2, 0] ∧
      (((Track.New 2 1 : Track Int).addClips
        [(3, ⟨[[1, 1, 1, 1, 1, 1, 1, 1, 1, 1]], 3, 1⟩),
         (5, ⟨[[2, 2, 2, 2, 2, 2, 2, 2, 2, 2]], 5, 3⟩)]).drain 6).map
          (fun chunks => sinkChannel chunks 0) = some [0, 0, 0, 1, 0, 2, 2, 2, 0, 0] := by
  refine ⟨?_, ?_⟩
  · decide
  · decide

end TrackTheorems
end Phono
